import Mathlib

set_option maxHeartbeats 1000000

/-!
Shallow embedding of the CIF codec implemented in
`src/biotite/structure/io/pdbx/cif.py` (classes `CIFData`, `CIFColumn`,
`CIFCategory`, `CIFBlock`, `CIFFile` and the module-level helpers).

Modelling conventions:
* Python `str` is modelled as `List Char` (`PyStr`); operations such as
  `strip`, `split`, `splitlines`, `ljust` are embedded as functions on
  `List Char` mirroring CPython semantics for the inputs the codec sees.
* numpy string arrays are modelled as `List` of values; a `CIFData` array is
  a list of `CIFValue`s (a Python `str` or a Python `float`, the two element
  kinds the claims exercise; numpy arrays are homogeneous, so the dtype
  checks of the source are embedded as `all`-quantified predicates).
* Python `float` is modelled as `ℚ`; the only float operation the source
  performs is fixed-point formatting, embedded over `ℚ`.
* Exceptions are modelled with an explicit `PyError` sum type returned
  through `Except`; a bare `except:` in the source becomes a `match` on any
  `Except.error`.
* Stateful methods (`CIFCategory.serialize` caches `_row_count`,
  `CIFBlock.__getitem__` / `CIFFile.__getitem__` replace a raw-text slot by
  the parsed object) return the new object state next to their result.
-/

abbrev PyStr := List Char

/-- Shorthand turning a Lean string literal into the `List Char` model of a
Python string. -/
def strL (s : String) : PyStr := s.toList

/-- The whitespace characters of CPython's `str.strip` / `str.split` /
`re` `\s` that can occur in CIF text (ASCII subset). -/
def isWS (c : Char) : Bool :=
  c = ' ' || c = '\t' || c = '\n' || c = '\r' || c = '\x0b' || c = '\x0c'

/-- Python `str.strip()` (remove leading and trailing whitespace). -/
def pyStrip (l : PyStr) : PyStr :=
  ((l.dropWhile isWS).reverse.dropWhile isWS).reverse

/-- Python `str.ljust(n)`. -/
def ljust (l : PyStr) (n : Nat) : PyStr :=
  l ++ List.replicate (n - l.length) ' '

/-- Helper of `pySplitOn`: accumulates the current piece (reversed). -/
def pySplitOnAux (sep : Char) : PyStr → PyStr → List PyStr
  | [], cur => [cur.reverse]
  | c :: rest, cur =>
    if c = sep then cur.reverse :: pySplitOnAux sep rest []
    else pySplitOnAux sep rest (c :: cur)

/-- Python `str.split(sep)` for a one-character separator: keeps empty
pieces, e.g. `"a..b".split(".") = ["a", "", "b"]`. -/
def pySplitOn (sep : Char) (l : PyStr) : List PyStr :=
  pySplitOnAux sep l []

/-- Helper of `pySplitWS`: accumulates the current token (reversed). -/
def pySplitWSAux : PyStr → PyStr → List PyStr
  | [], cur => if cur.isEmpty then [] else [cur.reverse]
  | c :: rest, cur =>
    if isWS c then
      if cur.isEmpty then pySplitWSAux rest []
      else cur.reverse :: pySplitWSAux rest []
    else pySplitWSAux rest (c :: cur)

/-- Python `str.split()` (no argument): tokens separated by whitespace runs,
no empty tokens. -/
def pySplitWS (l : PyStr) : List PyStr :=
  pySplitWSAux l []

/-- Python `str.splitlines()` restricted to `'\n'` line breaks (the only
line break the codec itself produces): split at every `'\n'` and drop the
final empty piece that a trailing `'\n'` (or an empty string) produces. -/
def splitlines (s : PyStr) : List PyStr :=
  let ps := pySplitOn '\n' s
  if ps.getLast? = some [] then ps.dropLast else ps

/-- Python `"\n".join(ls)`. -/
def joinNl (ls : List PyStr) : PyStr :=
  (ls.intersperse ['\n']).flatten

/-- Python `"".join(ls)`. -/
def joinEmpty (ls : List PyStr) : PyStr :=
  ls.flatten

/-- `_quote` of `cif.py`: the CIF quoting rule. -/
def _quote (value : PyStr) : PyStr :=
  if value.length = 0 then strL "''"
  else if 2 ≤ value.length ∧ value.head? = some '\'' ∧ value.getLast? = some '\'' then value
  else if 2 ≤ value.length ∧ value.head? = some '"' ∧ value.getLast? = some '"' then value
  else if value.head? = some '_' then '\'' :: (value ++ ['\''])
  else if value.contains '\'' then '"' :: (value ++ ['"'])
  else if value.contains '"' then '\'' :: (value ++ ['\''])
  else if value.contains ' ' then '\'' :: (value ++ ['\''])
  else if value.contains '\t' then '\'' :: (value ++ ['\''])
  else if value.contains '\n' then '\'' :: (value ++ ['\''])
  else value

/-- `_multiline` of `cif.py`: values containing a line break are emitted as
semicolon-delimited multiline blocks. -/
def _multiline (value : PyStr) : PyStr :=
  if value.contains '\n' then '\n' :: ';' :: (value ++ strL "\n;\n")
  else value

/-- `value` is of the form `q…q` with length at least 2 (the
"already quoted, pass through unchanged" test of `_quote`). -/
def wrappedIn (q : Char) (value : PyStr) : Prop :=
  2 ≤ value.length ∧ value.head? = some q ∧ value.getLast? = some q

instance (q : Char) (value : PyStr) : Decidable (wrappedIn q value) := by
  unfold wrappedIn; infer_instance

/-- C5 (counterexample): the claim says a string beginning with `'_'` is
wrapped in double quotes; `_quote` actually wraps it in single quotes. -/
theorem c5_counterexample :
    _quote (strL "_x") = strL "'_x'" ∧ ¬ _quote (strL "_x") = strL "\"_x\"" := by
  constructor
  · decide
  · decide

/-- C5 (amended): full characterization of `_quote`. The empty string maps
to two single quotes; a string already wrapped in matching single or double
quotes passes through unchanged; otherwise a string beginning with `'_'` is
wrapped in SINGLE quotes; otherwise a string containing a single quote is
wrapped in double quotes; otherwise a string containing a double quote, a
space, a tab or a newline is wrapped in single quotes; any other string is
returned unquoted. -/
theorem c5_quote_characterization (v : PyStr) :
    (v = [] → _quote v = strL "''")
    ∧ (wrappedIn '\'' v → _quote v = v)
    ∧ (¬ wrappedIn '\'' v → wrappedIn '"' v → _quote v = v)
    ∧ (¬ wrappedIn '\'' v → ¬ wrappedIn '"' v → v.head? = some '_' →
        _quote v = '\'' :: (v ++ ['\'']))
    ∧ (¬ wrappedIn '\'' v → ¬ wrappedIn '"' v → ¬ v.head? = some '_' →
        v.contains '\'' = true → _quote v = '"' :: (v ++ ['"']))
    ∧ (¬ wrappedIn '\'' v → ¬ wrappedIn '"' v → ¬ v.head? = some '_' →
        v.contains '\'' = false →
        (v.contains '"' = true ∨ v.contains ' ' = true ∨ v.contains '\t' = true ∨
          v.contains '\n' = true) →
        _quote v = '\'' :: (v ++ ['\'']))
    ∧ (v ≠ [] → ¬ wrappedIn '\'' v → ¬ wrappedIn '"' v → ¬ v.head? = some '_' →
        v.contains '\'' = false → v.contains '"' = false → v.contains ' ' = false →
        v.contains '\t' = false → v.contains '\n' = false →
        _quote v = v) := by
  unfold _quote wrappedIn
  refine ⟨?_, ?_, ?_, ?_, ?_, ?_, ?_⟩
  · intro h; subst h; decide
  · intro h
    have hlen : ¬ v.length = 0 := by
      intro h0; rw [h0] at h; omega
    rw [if_neg hlen, if_pos h]
  · intro h1 h2
    have hlen : ¬ v.length = 0 := by
      intro h0; rw [h0] at h2; omega
    rw [if_neg hlen, if_neg h1, if_pos h2]
  · intro h1 h2 h3
    have hlen : ¬ v.length = 0 := by
      intro h0
      have : v = [] := List.length_eq_zero.mp h0
      rw [this] at h3; simp at h3
    rw [if_neg hlen, if_neg h1, if_neg h2, if_pos h3]
  · intro h1 h2 h3 h4
    have hlen : ¬ v.length = 0 := by
      intro h0
      have : v = [] := List.length_eq_zero.mp h0
      rw [this] at h4; simp [List.contains] at h4
    rw [if_neg hlen, if_neg h1, if_neg h2, if_neg h3, if_pos h4]
  · intro h1 h2 h3 h4 h5
    rcases h5 with h5 | h5 | h5 | h5
    · have hlen : ¬ v.length = 0 := by
        intro h0
        have : v = [] := List.length_eq_zero.mp h0
        rw [this] at h5; simp [List.contains] at h5
      rw [if_neg hlen, if_neg h1, if_neg h2, if_neg h3,
        if_neg (by rw [h4]; decide), if_pos h5]
    · have hlen : ¬ v.length = 0 := by
        intro h0
        have : v = [] := List.length_eq_zero.mp h0
        rw [this] at h5; simp [List.contains] at h5
      rw [if_neg hlen, if_neg h1, if_neg h2, if_neg h3, if_neg (by rw [h4]; decide)]
      by_cases hq : v.contains '"' = true
      · rw [if_pos hq]
      · rw [if_neg hq, if_pos h5]
    · have hlen : ¬ v.length = 0 := by
        intro h0
        have : v = [] := List.length_eq_zero.mp h0
        rw [this] at h5; simp [List.contains] at h5
      rw [if_neg hlen, if_neg h1, if_neg h2, if_neg h3, if_neg (by rw [h4]; decide)]
      by_cases hq : v.contains '"' = true
      · rw [if_pos hq]
      · rw [if_neg hq]
        by_cases hsp : v.contains ' ' = true
        · rw [if_pos hsp]
        · rw [if_neg hsp, if_pos h5]
    · have hlen : ¬ v.length = 0 := by
        intro h0
        have : v = [] := List.length_eq_zero.mp h0
        rw [this] at h5; simp [List.contains] at h5
      rw [if_neg hlen, if_neg h1, if_neg h2, if_neg h3, if_neg (by rw [h4]; decide)]
      by_cases hq : v.contains '"' = true
      · rw [if_pos hq]
      · rw [if_neg hq]
        by_cases hsp : v.contains ' ' = true
        · rw [if_pos hsp]
        · rw [if_neg hsp]
          by_cases ht : v.contains '\t' = true
          · rw [if_pos ht]
          · rw [if_neg ht, if_pos h5]
  · intro h0 h1 h2 h3 h4 h5 h6 h7 h8
    have hlen : ¬ v.length = 0 := by
      intro hz
      exact h0 (List.length_eq_zero.mp hz)
    rw [if_neg hlen, if_neg h1, if_neg h2, if_neg h3, if_neg (by rw [h4]; decide),
      if_neg (by rw [h5]; decide), if_neg (by rw [h6]; decide), if_neg (by rw [h7]; decide),
      if_neg (by rw [h8]; decide)]

/-- C5 (witness): `_quote "it's"` is `"it's"` wrapped in double quotes. -/
theorem c5_witness :
    _quote (strL "it's") = '"' :: (strL "it's" ++ ['"']) := by
  have h := c5_quote_characterization (strL "it's")
  exact h.2.2.2.2.1 (by decide) (by decide) (by decide) (by decide)

/-- The Python exception kinds raised by the codec (`DeserializationError`
and `SerializationError` come from biotite's `file` module; the rest are
builtins). -/
inductive PyError
  | deserializationError (msg : PyStr)
  | serializationError (msg : PyStr)
  | valueError (msg : PyStr)
  | typeError (msg : PyStr)
  | indexError (msg : PyStr)
  | keyError (msg : PyStr)
  | stopIteration
deriving DecidableEq

/-- The class of a `PyError`, forgetting the message. -/
inductive PyErrorKind
  | deserializationErr
  | serializationErr
  | valueErr
  | typeErr
  | indexErr
  | keyErr
  | stopIterationErr
deriving DecidableEq

def PyError.kind : PyError → PyErrorKind
  | .deserializationError _ => .deserializationErr
  | .serializationError _ => .serializationErr
  | .valueError _ => .valueErr
  | .typeError _ => .typeErr
  | .indexError _ => .indexErr
  | .keyError _ => .keyErr
  | .stopIteration => .stopIterationErr

/-- The error kind of a computation's outcome (`none` when it succeeded). -/
def errKind : Except PyError α → Option PyErrorKind
  | .ok _ => none
  | .error e => some e.kind

/-- Modelled from the spec: the `MaskValue` enum of the `component` module
(the module itself is not under `src/`); spec section 3: mask values
`PRESENT(0)`, `INAPPLICABLE(1)` (rendered `.`), `MISSING(2)` (rendered `?`). -/
inductive MaskValue
  | present
  | inapplicable
  | missing
deriving DecidableEq

/-- Floor of a rational, computably. -/
def ratFloor (q : ℚ) : ℤ := Int.fdiv q.num q.den

/-- Round to the nearest integer, ties to even (the rounding CPython's
fixed-point float formatting applies to the decimal value). -/
def roundHalfEven (q : ℚ) : ℤ :=
  let f := ratFloor q
  let r := q - (f : ℚ)
  if r < 1/2 then f
  else if (1/2 : ℚ) < r then f + 1
  else if f % 2 = 0 then f else f + 1

/-- Left-pad with zeros to width `n`. -/
def padLeftZeros (l : PyStr) (n : Nat) : PyStr :=
  List.replicate (n - l.length) '0' ++ l

/-- Python `f"{x:.3f}"`: fixed-point rendering with exactly 3 decimals. -/
def formatFixed3 (q : ℚ) : PyStr :=
  let n := roundHalfEven (q * 1000)
  let sign := if q < 0 then strL "-" else []
  let a := n.natAbs
  sign ++ Nat.toDigits 10 (a / 1000) ++ '.' :: padLeftZeros (Nat.toDigits 10 (a % 1000)) 3

/-- Python `str()` of a float whose value is exactly representable with at
most 17 decimal digits (the only floats the codec round-trips): shortest
fixed-point form with at least one decimal digit. Not exercised by any
claim; present because `astype(str)` on float arrays needs a meaning. -/
def pyFloatStr (q : ℚ) : PyStr :=
  let k := max (((List.range 18).find? (fun k => (q * (10:ℚ)^k).den = 1)).getD 17) 1
  let n := roundHalfEven (q * (10:ℚ)^k)
  let sign := if q < 0 then strL "-" else []
  let a := n.natAbs
  sign ++ Nat.toDigits 10 (a / 10^k) ++ '.' :: padLeftZeros (Nat.toDigits 10 (a % 10^k)) k

/-- An element of a `CIFData` array: a Python `str` or a Python `float`
(the element kinds the codec and the claims exercise; numpy arrays are
homogeneous, mixed lists do not arise). -/
inductive CIFValue
  | str (s : PyStr)
  | float (q : ℚ)
deriving DecidableEq

/-- Python `str(value)` / numpy `astype(str)` on one element. -/
def CIFValue.toPyStr : CIFValue → PyStr
  | .str s => s
  | .float q => pyFloatStr q

/-- `CIFData`: the stored array. `__eq__` is `np.array_equal`, i.e.
element-wise equality, via `DecidableEq`. -/
structure CIFData where
  array : List CIFValue
deriving DecidableEq

/-- `np.issubdtype(array.dtype, np.floating)`: for the homogeneous arrays
numpy stores, the dtype is floating exactly when the elements are floats. -/
def CIFData.isFloating (d : CIFData) : Bool :=
  d.array.all (fun v => match v with | .float _ => true | .str _ => false)

/-- `CIFData(array, str)` built from a list of Python strings (`_arrayfy`
rejects the empty sequence with a `ValueError`). -/
def mkCIFDataStrs (vals : List PyStr) : Except PyError CIFData :=
  if vals.isEmpty then
    .error (.valueError (strL "Array must contain at least one element"))
  else .ok ⟨vals.map CIFValue.str⟩

/-- `CIFColumn`: data plus optional mask. `__eq__` compares data and mask. -/
structure CIFColumn where
  data : CIFData
  mask : Option (List MaskValue)
deriving DecidableEq

def CIFColumn.len (col : CIFColumn) : Nat := col.data.array.length

/-- The mask `CIFColumn.__init__` infers when none is supplied: `'.'` is
INAPPLICABLE, `'?'` is MISSING, everything else PRESENT; an all-PRESENT mask
is dropped (`mask = None`). -/
def inferMask (d : CIFData) : Option (List MaskValue) :=
  let m := d.array.map (fun v =>
    if v = CIFValue.str (strL ".") then MaskValue.inapplicable
    else if v = CIFValue.str (strL "?") then MaskValue.missing
    else MaskValue.present)
  if m.all (fun mv => mv = MaskValue.present) then none else some m

/-- `CIFColumn(data)` with `mask=None`: mask inference. -/
def mkCIFColumnNoMask (d : CIFData) : CIFColumn := ⟨d, inferMask d⟩

/-- `CIFColumn(data, mask)` with an explicit mask: length check, then the
mask is stored as given. -/
def mkCIFColumnWithMask (d : CIFData) (m : List MaskValue) :
    Except PyError CIFColumn :=
  if m.length ≠ d.array.length then
    .error (.indexError (strL "Data and mask have different lengths"))
  else .ok ⟨d, some m⟩

/-- Coercion `CIFColumn(col)` applied by `CIFCategory` to a list of strings:
`CIFData(data, str)` then mask inference. -/
def mkColumnFromStrs (vals : List PyStr) : Except PyError CIFColumn :=
  (mkCIFDataStrs vals).map mkCIFColumnNoMask

/-- `CIFColumn.as_item`. Mirrors the source's branch order: with no mask the
raw array item is returned unformatted (the float-formatting branch below is
only reachable with an explicit mask); with a mask, the single mask value is
read first, then PRESENT renders the item (floats with exactly 3 decimals),
INAPPLICABLE gives `'.'` and MISSING gives `'?'` without touching the data. -/
def CIFColumn.as_item (col : CIFColumn) : Except PyError CIFValue :=
  match col.mask with
  | none =>
    match col.data.array with
    | [v] => .ok v
    | _ => .error (.valueError (strL "can only convert an array of size 1"))
  | some m =>
    match m with
    | [mv] =>
      match mv with
      | .present =>
        match col.data.array with
        | [v] =>
          match v with
          | .float q => .ok (.str (formatFixed3 q))
          | .str s => .ok (.str s)
        | _ => .error (.valueError (strL "can only convert an array of size 1"))
      | .inapplicable => .ok (.str (strL "."))
      | .missing => .ok (.str (strL "?"))
    | _ => .error (.valueError (strL "can only convert an array of size 1"))

/-- One element of the masked-overwrite step of `as_array`: positions masked
INAPPLICABLE / MISSING are overwritten with `'.'` / `'?'`, PRESENT positions
keep the stringified datum. -/
def applyMaskStr (v : CIFValue) (mv : MaskValue) : PyStr :=
  match mv with
  | MaskValue.inapplicable => strL "."
  | MaskValue.missing => strL "?"
  | MaskValue.present => CIFValue.toPyStr v

/-- `CIFColumn.as_array` with the default arguments (`dtype=str`,
`masked_value=None`). With no mask: `astype(str)`. With a mask: the source's
float branch calls `np.array(..., type=dtype)` — an invalid keyword, a
`TypeError`; otherwise the data is copied as strings and the masked
positions are overwritten with `'.'` / `'?'`. -/
def CIFColumn.as_array_str (col : CIFColumn) : Except PyError (List PyStr) :=
  match col.mask with
  | none => .ok (col.data.array.map CIFValue.toPyStr)
  | some m =>
    if col.data.isFloating then
      .error (.typeError (strL "array() got an unexpected keyword argument 'type'"))
    else
      .ok (List.zipWith applyMaskStr col.data.array m)

/-- The presence code `CIFColumn.__init__` infers for one textual value. -/
def maskCodeOf (v : PyStr) : MaskValue :=
  if v = strL "." then MaskValue.inapplicable
  else if v = strL "?" then MaskValue.missing
  else MaskValue.present

lemma inferMask_strs (vals : List PyStr) :
    inferMask ⟨vals.map CIFValue.str⟩ =
      (if (vals.map maskCodeOf).all (fun mv => mv = MaskValue.present) then none
       else some (vals.map maskCodeOf)) := by
  have hm : (vals.map CIFValue.str).map (fun v =>
      if v = CIFValue.str (strL ".") then MaskValue.inapplicable
      else if v = CIFValue.str (strL "?") then MaskValue.missing
      else MaskValue.present) = vals.map maskCodeOf := by
    rw [List.map_map]
    refine List.map_congr_left ?_
    intro v _
    simp only [Function.comp, maskCodeOf, CIFValue.str.injEq]
  unfold inferMask
  rw [hm]

lemma isFloating_strs (vals : List PyStr) (h : vals ≠ []) :
    CIFData.isFloating ⟨vals.map CIFValue.str⟩ = false := by
  cases vals with
  | nil => exact absurd rfl h
  | cons v vs => simp [CIFData.isFloating]

lemma restore_elem (v : PyStr) : applyMaskStr (CIFValue.str v) (maskCodeOf v) = v := by
  by_cases h1 : v = strL "."
  · subst h1; simp [maskCodeOf, applyMaskStr]
  · by_cases h2 : v = strL "?"
    · subst h2; simp [maskCodeOf, applyMaskStr, h1]
    · simp [maskCodeOf, applyMaskStr, h1, h2, CIFValue.toPyStr]

lemma zip_restore (vals : List PyStr) :
    List.zipWith applyMaskStr (vals.map CIFValue.str) (vals.map maskCodeOf) = vals := by
  induction vals with
  | nil => rfl
  | cons v vs ih =>
    simp only [List.map_cons, List.zipWith_cons_cons, ih, List.cons.injEq, and_true]
    exact restore_elem v

lemma tostr_strs (vals : List PyStr) :
    (vals.map CIFValue.str).map CIFValue.toPyStr = vals := by
  induction vals with
  | nil => rfl
  | cons v vs ih => simp [ih, CIFValue.toPyStr]

lemma tostr_strs_comp (vals : List PyStr) :
    vals.map (CIFValue.toPyStr ∘ CIFValue.str) = vals := by
  rw [← List.map_map]
  exact tostr_strs vals

lemma map_restore (vals : List PyStr) :
    vals.map (fun a => applyMaskStr (CIFValue.str a) (maskCodeOf a)) = vals := by
  induction vals with
  | nil => rfl
  | cons v vs ih => simp only [List.map_cons, ih, restore_elem v]

/-- C3: a `CIFColumn` built from strings without an explicit mask infers the
mask element-wise (`'.'` ↦ INAPPLICABLE, `'?'` ↦ MISSING, else PRESENT), the
`mask` attribute is `None` exactly when every inferred code is PRESENT, and
`as_array()` with default arguments reproduces the original string tokens
exactly (including the sentinels). -/
theorem c3_mask_inference (vals : List PyStr) (h : vals ≠ []) :
    ∃ col : CIFColumn,
      mkColumnFromStrs vals = .ok col
      ∧ col.data.array = vals.map CIFValue.str
      ∧ (col.mask = none ∨ col.mask = some (vals.map maskCodeOf))
      ∧ (col.mask = none ↔ ∀ v ∈ vals, maskCodeOf v = MaskValue.present)
      ∧ col.as_array_str = .ok vals := by
  have hne : vals.isEmpty = false := by
    cases vals with
    | nil => exact absurd rfl h
    | cons v vs => rfl
  have hmk : mkColumnFromStrs vals =
      .ok (mkCIFColumnNoMask ⟨vals.map CIFValue.str⟩) := by
    simp [mkColumnFromStrs, mkCIFDataStrs, hne, Except.map]
  by_cases hall :
      (vals.map maskCodeOf).all (fun mv => mv = MaskValue.present) = true
  · have hmask : mkCIFColumnNoMask ⟨vals.map CIFValue.str⟩ =
        ⟨⟨vals.map CIFValue.str⟩, none⟩ := by
      unfold mkCIFColumnNoMask
      rw [inferMask_strs, if_pos hall]
    refine ⟨⟨⟨vals.map CIFValue.str⟩, none⟩, by rw [hmk, hmask], rfl, Or.inl rfl,
      ?_, ?_⟩
    · simp only [true_iff]
      intro v hv
      rw [List.all_eq_true] at hall
      have := hall (maskCodeOf v) (List.mem_map_of_mem _ hv)
      simpa using this
    · simp [CIFColumn.as_array_str, tostr_strs, tostr_strs_comp]
  · have hmask : mkCIFColumnNoMask ⟨vals.map CIFValue.str⟩ =
        ⟨⟨vals.map CIFValue.str⟩, some (vals.map maskCodeOf)⟩ := by
      unfold mkCIFColumnNoMask
      rw [inferMask_strs, if_neg hall]
    refine ⟨⟨⟨vals.map CIFValue.str⟩, some (vals.map maskCodeOf)⟩,
      by rw [hmk, hmask], rfl, Or.inr rfl, ?_, ?_⟩
    · constructor
      · intro hcontra; exact absurd hcontra (by simp)
      · intro hforall
        exfalso
        apply hall
        rw [List.all_eq_true]
        intro mv hmv
        rw [List.mem_map] at hmv
        obtain ⟨v, hv, rfl⟩ := hmv
        simpa using hforall v hv
    · simp [CIFColumn.as_array_str, isFloating_strs vals h, zip_restore,
        map_restore]

/-- C3 (witness): the column built from `["a", ".", "?", "b"]` infers the
codes `[PRESENT, INAPPLICABLE, MISSING, PRESENT]` and `as_array()`
reproduces the four tokens. -/
theorem c3_witness :
    (∃ col : CIFColumn,
      mkColumnFromStrs [strL "a", strL ".", strL "?", strL "b"] = .ok col
      ∧ col.data.array = [strL "a", strL ".", strL "?", strL "b"].map CIFValue.str
      ∧ (col.mask = none ∨
          col.mask = some ([strL "a", strL ".", strL "?", strL "b"].map maskCodeOf))
      ∧ (col.mask = none ↔
          ∀ v ∈ [strL "a", strL ".", strL "?", strL "b"],
            maskCodeOf v = MaskValue.present)
      ∧ col.as_array_str = .ok [strL "a", strL ".", strL "?", strL "b"])
    ∧ [strL "a", strL ".", strL "?", strL "b"].map maskCodeOf =
        [MaskValue.present, MaskValue.inapplicable, MaskValue.missing,
          MaskValue.present] :=
  ⟨c3_mask_inference [strL "a", strL ".", strL "?", strL "b"] (by decide),
    by decide⟩

/-- C4: with no mask attribute, `as_item` returns the raw array item, so a
length-1 unmasked float column yields the float `1.0` itself, NOT the
3-decimal string `"1.000"` the claim (and the method's own docstring, which
promises a `str`) require; the 3-decimal formatting branch is only reachable
with an explicit PRESENT mask. The masked sentinel branches behave as
claimed. -/
theorem c4_as_item_float :
    CIFColumn.as_item (mkCIFColumnNoMask ⟨[CIFValue.float 1]⟩) =
      .ok (CIFValue.float 1)
    ∧ CIFColumn.as_item (mkCIFColumnNoMask ⟨[CIFValue.float 1]⟩) ≠
        .ok (CIFValue.str (strL "1.000"))
    ∧ CIFColumn.as_item ⟨⟨[CIFValue.float 1]⟩, some [MaskValue.present]⟩ =
        .ok (CIFValue.str (strL "1.000"))
    ∧ CIFColumn.as_item ⟨⟨[CIFValue.float 1]⟩, some [MaskValue.inapplicable]⟩ =
        .ok (CIFValue.str (strL "."))
    ∧ CIFColumn.as_item ⟨⟨[CIFValue.float 1]⟩, some [MaskValue.missing]⟩ =
        .ok (CIFValue.str (strL "?")) := by
  refine ⟨rfl, ?_, ?_, rfl, rfl⟩
  · intro hEq
    exact absurd (Except.ok.inj hEq) (by decide)
  · show Except.ok (CIFValue.str (formatFixed3 1)) = _
    have hf : formatFixed3 1 = strL "1.000" := by
      unfold formatFixed3 roundHalfEven ratFloor
      norm_num
      decide
    rw [hf]

/-- First-match lookup in an insertion-ordered association list (the model
of a Python `dict`; keys are unique in every dict the codec builds). -/
def dictLookup [DecidableEq κ] : List (κ × α) → κ → Option α
  | [], _ => none
  | (k, v) :: rest, key => if k = key then some v else dictLookup rest key

/-- Python `d[key] = v`: replace in place if present, else append. -/
def dictInsert [DecidableEq κ] : List (κ × α) → κ → α → List (κ × α)
  | [], key, v => [(key, v)]
  | (k, w) :: rest, key, v =>
    if k = key then (k, v) :: rest else (k, w) :: dictInsert rest key v

/-- Python `del d[key]` (caller checks presence). -/
def dictErase [DecidableEq κ] : List (κ × α) → κ → List (κ × α)
  | [], _ => []
  | (k, v) :: rest, key => if k = key then rest else (k, v) :: dictErase rest key

/-- Python `d[key].append(v)` for a list-valued dict; `none` models the
`KeyError` on an absent key. -/
def dictAppendTok [DecidableEq κ] :
    List (κ × List α) → κ → α → Option (List (κ × List α))
  | [], _, _ => none
  | (k, vs) :: rest, key, v =>
    if k = key then some ((k, vs ++ [v]) :: rest)
    else (dictAppendTok rest key v).map (fun d => (k, vs) :: d)

/-- `set(a.keys()) == set(b.keys())`. -/
def sameKeySet [DecidableEq κ] (a b : List (κ × α)) : Bool :=
  a.all (fun kv => (dictLookup b kv.1).isSome) &&
  b.all (fun kv => (dictLookup a kv.1).isSome)

/-- `CIFCategory`: optional name, the `_row_count` cache and the ordered
column dict. `__init__` always starts with `_row_count = None`. -/
structure CIFCategory where
  name : Option PyStr
  rowCountCache : Option Nat
  columns : List (PyStr × CIFColumn)
deriving DecidableEq

/-- `CIFCategory(columns, name)` for columns that are already `CIFColumn`s. -/
def mkCIFCategory (cols : List (PyStr × CIFColumn)) (name : Option PyStr) :
    CIFCategory :=
  ⟨name, none, cols⟩

/-- `CIFCategory.__eq__`: equal key sets and equal columns under every key;
the name and the row-count cache are not compared. -/
def CIFCategory.eqb (a b : CIFCategory) : Bool :=
  sameKeySet a.columns b.columns &&
  a.columns.all (fun kv =>
    match dictLookup a.columns kv.1, dictLookup b.columns kv.1 with
    | some ca, some cb => ca = cb
    | _, _ => false)

/-- The `row_count` property: answer from the cache, else measure the first
column and cache it (`next(iter(...))` on an empty dict raises). -/
def CIFCategory.row_count (cat : CIFCategory) :
    Except PyError (Nat × CIFCategory) :=
  match cat.rowCountCache with
  | some n => .ok (n, cat)
  | none =>
    match cat.columns with
    | [] => .error .stopIteration
    | (_, c) :: _ => .ok (c.len, { cat with rowCountCache := some c.len })

/-- The column-length walk of `CIFCategory.serialize`: threading the
`_row_count` cache through the columns, stopping at the first length
mismatch. Returns the cache value as of return/raise time, and the raised
error if any. -/
def checkRowsAux : Option Nat → List (PyStr × CIFColumn) →
    Option Nat × Option PyError
  | rc, [] => (rc, none)
  | rc, (nm, col) :: rest =>
    match rc with
    | none => checkRowsAux (some col.len) rest
    | some n =>
      if col.len ≠ n then
        (some n, some (.serializationError
          (strL "All columns must have the same length, but '" ++ nm ++
            strL "' differs from the first column's row_count")))
      else checkRowsAux (some n) rest

/-- `_quote(column.as_item())` as used by `_serialize_single`: a raw float
item (the unmasked-float `as_item` result) has no `len()`, a `TypeError`. -/
def itemToQuoted (col : CIFColumn) : Except PyError PyStr :=
  match col.as_item with
  | .error e => .error e
  | .ok (CIFValue.str s) => .ok (_multiline (_quote s))
  | .ok (CIFValue.float _) =>
    .error (.typeError (strL "object of type 'float' has no len()"))

/-- `CIFCategory._serialize_single`: one `_<name>.<column>` key per line,
left-justified to the longest key plus three spaces, then the quoted item. -/
def serializeSingle (nm : PyStr) (cols : List (PyStr × CIFColumn)) :
    Except PyError (List PyStr) :=
  let keys := cols.map (fun kc => '_' :: (nm ++ '.' :: kc.1))
  let maxLen := (keys.map List.length).foldl max 0
  let reqLen := maxLen + 3
  (cols.mapM (fun (kc : PyStr × CIFColumn) => itemToQuoted kc.2)).map (fun quoted =>
    List.zipWith (fun key q => ljust key reqLen ++ q) keys quoted)

/-- `CIFCategory._serialize_looped`: a `loop_` marker, one trailing-space
key line per column, then one line per row with each quoted value
left-justified to its column's maximal rendered width plus one (the
`itemsize`-derived width). The source's `value_lines[i].rstrip()` discards
its result, so the trailing padding of the last column stays — embedded
faithfully by not stripping. -/
def serializeLooped (nm : PyStr) (cols : List (PyStr × CIFColumn))
    (rowCount : Nat) : Except PyError (List PyStr) :=
  let keyLines := cols.map (fun kc => '_' :: (nm ++ '.' :: kc.1) ++ [' '])
  (cols.mapM (fun (kc : PyStr × CIFColumn) => kc.2.as_array_str)).map (fun arrays =>
    let quotedArrays := arrays.map (fun arr => arr.map (fun e => _multiline (_quote e)))
    let nChars := quotedArrays.map (fun arr => (arr.map List.length).foldl max 0 + 1)
    let valueLines := (List.range rowCount).map (fun i =>
      joinEmpty (List.zipWith (fun arr w => ljust (arr.getD i []) w) quotedArrays nChars))
    strL "loop_" :: keyLines ++ valueLines)

/-- `CIFCategory.serialize`. Checks, in source order: missing name
(`SerializationError`), no columns (`ValueError`), the column-length walk
(`SerializationError` at the first mismatch, caching `_row_count` as a side
effect that survives the raise), zero rows (`ValueError`); then the
single-row or looped body, a forced terminal line break, and the `"\n"`
join. The returned category carries the updated `_row_count` cache. -/
def CIFCategory.serialize (cat : CIFCategory) :
    Except PyError PyStr × CIFCategory :=
  match cat.name with
  | none => (.error (.serializationError (strL "Category name is required")), cat)
  | some nm =>
    if cat.columns.isEmpty then
      (.error (.valueError (strL "At least one column is required")), cat)
    else
      match checkRowsAux cat.rowCountCache cat.columns with
      | (rc, some e) => (.error e, { cat with rowCountCache := rc })
      | (rc, none) =>
        let cat' : CIFCategory := { cat with rowCountCache := rc }
        match rc with
        | none => (.error .stopIteration, cat')
        | some n =>
          if n = 0 then
            (.error (.valueError (strL "At least one row is required")), cat')
          else if n = 1 then
            match serializeSingle nm cat.columns with
            | .error e => (.error e, cat')
            | .ok lines => (.ok (joinNl (lines ++ [[]])), cat')
          else
            match serializeLooped nm cat.columns n with
            | .error e => (.error e, cat')
            | .ok lines => (.ok (joinNl (lines ++ [[]])), cat')

/-- `CIFCategory.__delitem__`: refuse (ValueError) when only one column
remains — checked before the key is even looked up — else delete, with
`KeyError` on an absent key. -/
def CIFCategory.delitem (cat : CIFCategory) (key : PyStr) :
    Option PyError × CIFCategory :=
  if cat.columns.length = 1 then
    (some (.valueError (strL "At least one column must remain")), cat)
  else if (dictLookup cat.columns key).isSome then
    (none, { cat with columns := dictErase cat.columns key })
  else
    (some (.keyError key), cat)

lemma checkRows_first_coord (n : Nat) (l : List (PyStr × CIFColumn)) :
    (checkRowsAux (some n) l).1 = some n := by
  induction l with
  | nil => rfl
  | cons kc rest ih =>
    obtain ⟨nm, col⟩ := kc
    by_cases h : col.len ≠ n
    · simp [checkRowsAux, h]
    · simp [checkRowsAux, h, ih]

lemma checkRows_mismatch (n : Nat) (l : List (PyStr × CIFColumn))
    (h : ∃ kc ∈ l, CIFColumn.len kc.2 ≠ n) :
    (checkRowsAux (some n) l).1 = some n ∧
    ∃ e, (checkRowsAux (some n) l).2 = some e ∧ e.kind = .serializationErr := by
  refine ⟨checkRows_first_coord n l, ?_⟩
  induction l with
  | nil =>
    obtain ⟨kc', hmem, hfalse⟩ := h
    exact absurd hmem (List.not_mem_nil _)
  | cons kc rest ih =>
    obtain ⟨nm, col⟩ := kc
    by_cases hc : col.len = n
    · obtain ⟨kc', hmem, hlen⟩ := h
      rcases List.mem_cons.mp hmem with rfl | hmem'
      · exact absurd hc hlen
      · have := ih ⟨kc', hmem', hlen⟩
        simpa [checkRowsAux, hc] using this
    · simp only [checkRowsAux, if_pos hc]
      exact ⟨_, rfl, rfl⟩

lemma checkRows_uniform (n : Nat) (l : List (PyStr × CIFColumn))
    (h : ∀ kc ∈ l, CIFColumn.len kc.2 = n) :
    checkRowsAux (some n) l = (some n, none) := by
  induction l with
  | nil => rfl
  | cons kc rest ih =>
    obtain ⟨nm, col⟩ := kc
    have hc : col.len = n := h (nm, col) (List.mem_cons_self _ _)
    simp only [checkRowsAux, hc, if_neg (by omega : ¬ n ≠ n)]
    exact ih (fun kc hkc => h kc (List.mem_cons_of_mem _ hkc))

lemma checkRows_ok (rc0 : Option Nat) (l : List (PyStr × CIFColumn)) (n : Nat)
    (h : checkRowsAux rc0 l = (some n, none)) :
    ∀ kc ∈ l, CIFColumn.len kc.2 = n := by
  induction l generalizing rc0 with
  | nil => intro kc hkc; simp at hkc
  | cons kc0 rest ih =>
    obtain ⟨nm, col⟩ := kc0
    match rc0 with
    | none =>
      have h' : checkRowsAux (some col.len) rest = (some n, none) := by
        simpa [checkRowsAux] using h
      have hfc := checkRows_first_coord col.len rest
      rw [h'] at hfc
      simp only [Option.some.injEq] at hfc
      intro kc hkc
      rcases List.mem_cons.mp hkc with rfl | hmem
      · show CIFColumn.len col = n
        omega
      · exact ih (some col.len) h' kc hmem
    | some m =>
      by_cases hc : col.len = m
      · have h' : checkRowsAux (some m) rest = (some n, none) := by
          simpa [checkRowsAux, hc] using h
        have hfc := checkRows_first_coord m rest
        rw [h'] at hfc
        simp only [Option.some.injEq] at hfc
        intro kc hkc
        rcases List.mem_cons.mp hkc with rfl | hmem
        · show CIFColumn.len col = n
          omega
        · exact ih (some m) h' kc hmem
      · exfalso
        simp [checkRowsAux, hc] at h

lemma serialize_mismatch (nm k1 : PyStr) (c1 : CIFColumn)
    (rest : List (PyStr × CIFColumn))
    (h : ∃ kc ∈ rest, CIFColumn.len kc.2 ≠ c1.len) :
    ∃ e, CIFCategory.serialize ⟨some nm, none, (k1, c1) :: rest⟩ =
        (.error e, ⟨some nm, some c1.len, (k1, c1) :: rest⟩)
      ∧ e.kind = .serializationErr := by
  obtain ⟨hfst, e, he, hkind⟩ := checkRows_mismatch c1.len rest h
  have hck : checkRowsAux none ((k1, c1) :: rest) = (some c1.len, some e) := by
    show checkRowsAux (some c1.len) rest = _
    rw [Prod.ext_iff]
    exact ⟨hfst, he⟩
  refine ⟨e, ?_, hkind⟩
  unfold CIFCategory.serialize
  rw [hck]
  rfl

lemma serialize_zero_rows (nm k1 : PyStr) (c1 : CIFColumn)
    (rest : List (PyStr × CIFColumn))
    (h0 : CIFColumn.len c1 = 0) (h : ∀ kc ∈ rest, CIFColumn.len kc.2 = 0) :
    CIFCategory.serialize ⟨some nm, none, (k1, c1) :: rest⟩ =
      (.error (.valueError (strL "At least one row is required")),
        ⟨some nm, some 0, (k1, c1) :: rest⟩) := by
  have hck : checkRowsAux none ((k1, c1) :: rest) = (some 0, none) := by
    show checkRowsAux (some c1.len) rest = _
    rw [h0]
    exact checkRows_uniform 0 rest h
  unfold CIFCategory.serialize
  rw [hck]
  rfl

lemma serialize_ok_conditions (cat : CIFCategory) (t : PyStr)
    (ht : (CIFCategory.serialize cat).1 = .ok t) :
    cat.name ≠ none ∧ cat.columns ≠ [] ∧
      ∃ n, 1 ≤ n ∧ ∀ kc ∈ cat.columns, CIFColumn.len kc.2 = n := by
  obtain ⟨name, rcc, cols⟩ := cat
  match name with
  | none => exact absurd ht (by simp [CIFCategory.serialize])
  | some nm =>
    by_cases hcols : cols.isEmpty = true
    · exfalso
      unfold CIFCategory.serialize at ht
      dsimp only at ht
      rw [if_pos hcols] at ht
      simp at ht
    · have hne : cols ≠ [] := by
        intro hnil
        rw [hnil] at hcols
        exact hcols rfl
      rcases hck : checkRowsAux rcc cols with ⟨rc, err⟩
      match err with
      | some e =>
        exfalso
        unfold CIFCategory.serialize at ht
        dsimp only at ht
        rw [hck] at ht
        simp [hne] at ht
      | none =>
        match rc with
        | none =>
          exfalso
          unfold CIFCategory.serialize at ht
          dsimp only at ht
          rw [hck] at ht
          simp [hne] at ht
        | some n =>
          refine ⟨by simp, hne, n, ?_, checkRows_ok rcc cols n hck⟩
          by_cases hn : n = 0
          · exfalso
            unfold CIFCategory.serialize at ht
            dsimp only at ht
            rw [hck] at ht
            simp [hne, hn] at ht
          · omega

/-- C9: deleting a column from a single-column category fails with a
`ValueError` before anything is looked up, leaving the category unchanged
with its original column; a deletion that does not raise implies more than
one column was present. -/
theorem c9_delete_guard (cat : CIFCategory) (key : PyStr) :
    (cat.columns.length = 1 →
      cat.delitem key =
        (some (.valueError (strL "At least one column must remain")), cat))
    ∧ ((cat.delitem key).1 = none → 1 < cat.columns.length) := by
  constructor
  · intro h1
    simp [CIFCategory.delitem, h1]
  · intro hok
    by_cases h1 : cat.columns.length = 1
    · simp [CIFCategory.delitem, h1] at hok
    · by_cases h2 : (dictLookup cat.columns key).isSome
      · have hne : cat.columns ≠ [] := by
          intro hnil
          rw [hnil] at h2
          simp [dictLookup] at h2
        have : 1 ≤ cat.columns.length := by
          cases hc : cat.columns with
          | nil => exact absurd hc hne
          | cons a l => simp
        omega
      · simp [CIFCategory.delitem, h1, h2] at hok

/-- C9 (witness): the concrete single-column category refuses deletion and
is returned unchanged. -/
theorem c9_witness :
    CIFCategory.delitem
      ⟨some (strL "cat"), none, [(strL "a", ⟨⟨[CIFValue.str (strL "x")]⟩, none⟩)]⟩
      (strL "a") =
    (some (.valueError (strL "At least one column must remain")),
      ⟨some (strL "cat"), none, [(strL "a", ⟨⟨[CIFValue.str (strL "x")]⟩, none⟩)]⟩) :=
  (c9_delete_guard _ _).1 rfl

/-- C10: when `serialize` raises because the columns have unequal lengths,
it has already cached the first column's length in `_row_count`, so the
returned (post-raise) state answers `row_count` with the first column's
length instead of the pre-call `None`. -/
theorem c10_serialize_frame_effect (nm k1 : PyStr) (c1 : CIFColumn)
    (rest : List (PyStr × CIFColumn))
    (h : ∃ kc ∈ rest, CIFColumn.len kc.2 ≠ c1.len) :
    errKind (CIFCategory.serialize ⟨some nm, none, (k1, c1) :: rest⟩).1 =
      some .serializationErr
    ∧ (CIFCategory.serialize ⟨some nm, none, (k1, c1) :: rest⟩).2.rowCountCache =
        some (CIFColumn.len c1)
    ∧ CIFCategory.row_count (CIFCategory.serialize ⟨some nm, none, (k1, c1) :: rest⟩).2 =
        .ok (CIFColumn.len c1,
          (CIFCategory.serialize ⟨some nm, none, (k1, c1) :: rest⟩).2) := by
  obtain ⟨e, hser, hkind⟩ := serialize_mismatch nm k1 c1 rest h
  rw [hser]
  exact ⟨by simp [errKind, hkind], rfl, rfl⟩

/-- C10 (witness): a fresh two-column category with lengths 1 and 2. -/
theorem c10_witness :
    errKind (CIFCategory.serialize ⟨some (strL "cat"), none,
      [(strL "a", ⟨⟨[CIFValue.str (strL "x")]⟩, none⟩),
       (strL "b", ⟨⟨[CIFValue.str (strL "y"), CIFValue.str (strL "z")]⟩, none⟩)]⟩).1 =
      some .serializationErr
    ∧ (CIFCategory.serialize ⟨some (strL "cat"), none,
      [(strL "a", ⟨⟨[CIFValue.str (strL "x")]⟩, none⟩),
       (strL "b", ⟨⟨[CIFValue.str (strL "y"), CIFValue.str (strL "z")]⟩, none⟩)]⟩).2.rowCountCache =
        some (CIFColumn.len ⟨⟨[CIFValue.str (strL "x")]⟩, none⟩)
    ∧ CIFCategory.row_count (CIFCategory.serialize ⟨some (strL "cat"), none,
      [(strL "a", ⟨⟨[CIFValue.str (strL "x")]⟩, none⟩),
       (strL "b", ⟨⟨[CIFValue.str (strL "y"), CIFValue.str (strL "z")]⟩, none⟩)]⟩).2 =
        .ok (CIFColumn.len ⟨⟨[CIFValue.str (strL "x")]⟩, none⟩,
          (CIFCategory.serialize ⟨some (strL "cat"), none,
            [(strL "a", ⟨⟨[CIFValue.str (strL "x")]⟩, none⟩),
             (strL "b", ⟨⟨[CIFValue.str (strL "y"), CIFValue.str (strL "z")]⟩, none⟩)]⟩).2) :=
  c10_serialize_frame_effect (strL "cat") (strL "a")
    ⟨⟨[CIFValue.str (strL "x")]⟩, none⟩
    [(strL "b", ⟨⟨[CIFValue.str (strL "y"), CIFValue.str (strL "z")]⟩, none⟩)]
    (by decide)

/-- C6 (counterexample): a named category with zero columns raises a
`ValueError`, not the `SerializationError` the claim requires. -/
theorem c6_counterexample :
    (CIFCategory.serialize ⟨some (strL "foo"), none, []⟩).1 =
      .error (.valueError (strL "At least one column is required"))
    ∧ errKind (CIFCategory.serialize ⟨some (strL "foo"), none, []⟩).1 ≠
        some .serializationErr := by
  exact ⟨rfl, by decide⟩

/-- C6 (amended): `serialize` raises `SerializationError` for a missing
name and for non-uniform column lengths (on a fresh, uncached category),
but `ValueError` — not `SerializationError` — for zero columns and for zero
rows; in every failure case no text is returned, and success implies the
name is set, at least one column exists and all columns share a row count
of at least 1. -/
theorem c6_serialize_errors (cat : CIFCategory) :
    (cat.name = none →
      (CIFCategory.serialize cat).1 =
        .error (.serializationError (strL "Category name is required")))
    ∧ (cat.name ≠ none → cat.columns = [] →
      (CIFCategory.serialize cat).1 =
        .error (.valueError (strL "At least one column is required")))
    ∧ (cat.rowCountCache = none →
      ∀ nm k1 c1 rest, cat.name = some nm → cat.columns = (k1, c1) :: rest →
        (∃ kc ∈ rest, CIFColumn.len kc.2 ≠ c1.len) →
        errKind (CIFCategory.serialize cat).1 = some .serializationErr)
    ∧ (cat.rowCountCache = none →
      ∀ nm k1 c1 rest, cat.name = some nm → cat.columns = (k1, c1) :: rest →
        CIFColumn.len c1 = 0 → (∀ kc ∈ rest, CIFColumn.len kc.2 = 0) →
        (CIFCategory.serialize cat).1 =
          .error (.valueError (strL "At least one row is required")))
    ∧ (∀ t, (CIFCategory.serialize cat).1 = .ok t →
      cat.name ≠ none ∧ cat.columns ≠ [] ∧
        ∃ n, 1 ≤ n ∧ ∀ kc ∈ cat.columns, CIFColumn.len kc.2 = n) := by
  obtain ⟨name, rcc, cols⟩ := cat
  refine ⟨?_, ?_, ?_, ?_, ?_⟩
  · intro h
    simp only at h
    subst h
    rfl
  · intro hname h
    simp only at h
    subst h
    match name with
    | none => exact absurd rfl hname
    | some nm => rfl
  · intro hrcc nm k1 c1 rest hname hcols hmis
    simp only at hrcc hname hcols
    subst hrcc hname hcols
    obtain ⟨e, hser, hkind⟩ := serialize_mismatch nm k1 c1 rest hmis
    rw [hser]
    simp [errKind, hkind]
  · intro hrcc nm k1 c1 rest hname hcols h0 hrest
    simp only at hrcc hname hcols
    subst hrcc hname hcols
    rw [serialize_zero_rows nm k1 c1 rest h0 hrest]
  · intro t ht
    exact serialize_ok_conditions ⟨name, rcc, cols⟩ t ht

/-- C6 (witness): a fresh named two-column category with lengths 1 and 2
raises a `SerializationError`. -/
theorem c6_witness :
    errKind (CIFCategory.serialize ⟨some (strL "cat"), none,
      [(strL "a", ⟨⟨[CIFValue.str (strL "x")]⟩, none⟩),
       (strL "b", ⟨⟨[CIFValue.str (strL "y"), CIFValue.str (strL "z")]⟩, none⟩)]⟩).1 =
      some .serializationErr :=
  (c6_serialize_errors ⟨some (strL "cat"), none,
      [(strL "a", ⟨⟨[CIFValue.str (strL "x")]⟩, none⟩),
       (strL "b", ⟨⟨[CIFValue.str (strL "y"), CIFValue.str (strL "z")]⟩, none⟩)]⟩).2.2.1
    rfl (strL "cat") (strL "a") ⟨⟨[CIFValue.str (strL "x")]⟩, none⟩
    [(strL "b", ⟨⟨[CIFValue.str (strL "y"), CIFValue.str (strL "z")]⟩, none⟩)]
    rfl rfl (by decide)

/-- Greedy maximal star length of the quoted-field regex
`(?:q(?! )|[^q])*` at the head of the string: a position is consumable iff
its character is not the quote, or is the quote and the next character is
not a literal space (end-of-string counts as not-a-space). Each alternative
consumes exactly one character. -/
def starLen (q : Char) : PyStr → Nat
  | [] => 0
  | c :: rest =>
    if c ≠ q then 1 + starLen q rest
    else
      match rest with
      | [] => 1
      | d :: _ => if d ≠ ' ' then 1 + starLen q rest else 0

/-- Backtracking of the quoted-field regex: try the star length `m`, then
`m-1`, …, `0`; candidate `m` succeeds when the character after the `m`
consumed ones is the closing quote followed by whitespace (consumed, flag
`true`) or the end of the string (flag `false`). -/
def tryClose (q : Char) (rest : PyStr) : Nat → Option (Nat × Bool)
  | 0 =>
    if rest.get? 0 = some q then
      match rest.get? 1 with
      | none => some (0, false)
      | some d => if isWS d then some (0, true) else none
    else none
  | m + 1 =>
    if rest.get? (m + 1) = some q then
      match rest.get? (m + 2) with
      | none => some (m + 1, false)
      | some d => if isWS d then some (m + 1, true) else tryClose q rest m
    else tryClose q rest m

/-- One anchored match of the quoted-field pattern
`(q(?:q(?! )|[^q])*q)(?:\s|$)` of `_split_one_line`: returns the captured
group (quotes included) and the remainder after the whole match (the
trailing whitespace, when present, is consumed). -/
def matchQuoted (q : Char) : PyStr → Option (PyStr × PyStr)
  | [] => none
  | c :: rest =>
    if c = q then
      match tryClose q rest (starLen q rest) with
      | some (m, ws) =>
        some (q :: (rest.take m ++ [q]),
          rest.drop (m + 1 + (if ws then 1 else 0)))
      | none => none
    else none

/-- The scan of `re.findall` over the combined pattern of
`_split_one_line`, with fuel (every step consumes at least one character,
so `length` fuel suffices). At a quote character the quoted alternative is
tried first; if it fails, `[^\s]+` matches the maximal non-whitespace run;
at whitespace no alternative matches and the scan advances. -/
def splitFieldsF : Nat → PyStr → List PyStr
  | 0, _ => []
  | _, [] => []
  | fuel + 1, c :: rest =>
    if c = '\'' ∨ c = '"' then
      match matchQuoted c (c :: rest) with
      | some (g, rest2) => g :: splitFieldsF fuel rest2
      | none =>
        (c :: rest).takeWhile (fun x => !isWS x) ::
          splitFieldsF fuel ((c :: rest).dropWhile (fun x => !isWS x))
    else if isWS c then splitFieldsF fuel rest
    else
      (c :: rest).takeWhile (fun x => !isWS x) ::
        splitFieldsF fuel ((c :: rest).dropWhile (fun x => !isWS x))

/-- The raw fields `re.findall` produces for one line. -/
def splitFields (cs : PyStr) : List PyStr := splitFieldsF cs.length cs

/-- The quote-stripping applied to every found field (and to every token of
the fast whitespace split): `f[1:-1]` when the first and last character are
the same quote character. -/
def stripQuotes (f : PyStr) : PyStr :=
  match f.head?, f.getLast? with
  | some a, some b =>
    if (a = '\'' ∧ b = '\'') ∨ (a = '"' ∧ b = '"') then (f.drop 1).dropLast
    else f
  | _, _ => f

/-- `_split_one_line` of `cif.py`: regex fields, then quote stripping. -/
def _split_one_line (line : PyStr) : List PyStr :=
  (splitFields line).map stripQuotes

/-- The fast tokenizer of `_deserialize_looped` (`expect_whitespace=False`):
plain whitespace split, then the same quote stripping. -/
def fastSplit (line : PyStr) : List PyStr :=
  (pySplitWS line).map stripQuotes

/-- The tokenizer `_deserialize_looped` selects from `expect_whitespace`. -/
def tokenizeLine (ew : Bool) (line : PyStr) : List PyStr :=
  if ew then _split_one_line line else fastSplit line

/-- `key_line.split(".")[1]` of the looped key-line scan (`IndexError` when
the line has no `'.'`). -/
def loopKeyOf (l : PyStr) : Except PyError PyStr :=
  match (pySplitOn '.' l).get? 1 with
  | some k => .ok k
  | none => .error (.indexError (strL "list index out of range"))

/-- The `itertools.cycle(column_names)` / `next` round-robin of
`_deserialize_looped`: `cyc` is the not-yet-consumed tail of the current
cycle pass; when it runs out the cycle restarts at `allKeys` (and `next` on
a cycle over an empty sequence raises `StopIteration`). `dictAppendTok`
models `category_dict[column_name].append(val)`. -/
def assignTokens (allKeys : List PyStr) :
    List PyStr → List PyStr → List (PyStr × List PyStr) →
    Except PyError (List (PyStr × List PyStr))
  | [], _, d => .ok d
  | t :: toks, cyc, d =>
    match cyc with
    | key :: cyc' =>
      match dictAppendTok d key t with
      | some d' => assignTokens allKeys toks cyc' d'
      | none => .error (.keyError key)
    | [] =>
      match allKeys with
      | [] => .error .stopIteration
      | key :: restKeys =>
        match dictAppendTok d key t with
        | some d' => assignTokens allKeys toks restKeys d'
        | none => .error (.keyError key)

/-- `CIFCategory._deserialize_looped`: collect the leading `_`-prefixed key
lines as the ordered column names (each initialised to an empty value
list), then assign every token of every data line to the columns in
round-robin order. The source threads one `itertools.cycle` across all data
lines, so tokenizing each line and flattening is equivalent. -/
def deserializeLooped (lines : List PyStr) (ew : Bool) :
    Except PyError (List (PyStr × List PyStr)) := do
  let keyLines := lines.takeWhile (fun l => l.head? = some '_')
  let dataLines := lines.dropWhile (fun l => l.head? = some '_')
  let keys ← keyLines.mapM loopKeyOf
  let d0 := keys.foldl (fun d k => dictInsert d k []) []
  let toks := (dataLines.map (tokenizeLine ew)).flatten
  assignTokens keys toks [] d0

/-- Round-robin selection: the elements of `T` that a counter starting at
`r` and cycling modulo `k` assigns to slot `j`. This is the specification
the round-robin claims are stated against. -/
def rrCol (k j : Nat) : List α → Nat → List α
  | [], _ => []
  | t :: T, r => (if r = j then [t] else []) ++ rrCol k j T ((r + 1) % k)

lemma dictLookup_isSome_of_mem [DecidableEq κ] (d : List (κ × α)) (key : κ)
    (h : key ∈ d.map Prod.fst) : ∃ v, dictLookup d key = some v := by
  induction d with
  | nil => simp at h
  | cons kv rest ih =>
    obtain ⟨k, v⟩ := kv
    by_cases hk : k = key
    · exact ⟨v, by simp [dictLookup, hk]⟩
    · have hmem : key ∈ rest.map Prod.fst := by
        simp only [List.map_cons, List.mem_cons] at h
        rcases h with h | h
        · exact absurd h.symm hk
        · exact h
      obtain ⟨v', hv'⟩ := ih hmem
      exact ⟨v', by simp [dictLookup, hk, hv']⟩

lemma dictAppendTok_spec (d : List (PyStr × List PyStr)) (key : PyStr)
    (t : PyStr) (vs : List PyStr) (h : dictLookup d key = some vs) :
    ∃ d', dictAppendTok d key t = some d'
      ∧ d'.map Prod.fst = d.map Prod.fst
      ∧ dictLookup d' key = some (vs ++ [t])
      ∧ ∀ key', key' ≠ key → dictLookup d' key' = dictLookup d key' := by
  induction d with
  | nil => simp [dictLookup] at h
  | cons kv rest ih =>
    obtain ⟨k, ws⟩ := kv
    by_cases hk : k = key
    · subst hk
      have hws : ws = vs := by simpa [dictLookup] using h
      subst hws
      refine ⟨(k, ws ++ [t]) :: rest, by simp [dictAppendTok], by simp,
        by simp [dictLookup], ?_⟩
      intro key' hne
      simp [dictLookup, if_neg (Ne.symm hne)]
    · have h' : dictLookup rest key = some vs := by
        simpa [dictLookup, hk] using h
      obtain ⟨d', hd', hkeys, hlook, hother⟩ := ih h'
      refine ⟨(k, ws) :: d', ?_, by simp [hkeys], ?_, ?_⟩
      · simp [dictAppendTok, hk, hd']
      · simp [dictLookup, hk, hlook]
      · intro key' hne
        by_cases hkk : k = key'
        · simp [dictLookup, hkk]
        · simp [dictLookup, hkk, hother key' hne]

lemma assignTokens_refill (allKeys : List PyStr) (T : List PyStr)
    (d : List (PyStr × List PyStr)) :
    assignTokens allKeys T [] d = assignTokens allKeys T allKeys d := by
  cases T with
  | nil => rfl
  | cons t T' =>
    cases allKeys with
    | nil => rfl
    | cons k ks => rfl

lemma assignTokens_rr (keys : List PyStr) (hnd : keys.Nodup) :
    ∀ (T : List PyStr) (r : Nat) (hr : r < keys.length)
      (d : List (PyStr × List PyStr)), d.map Prod.fst = keys →
    ∃ d', assignTokens keys T (keys.drop r) d = .ok d'
      ∧ d'.map Prod.fst = keys
      ∧ ∀ (j : Nat) (hj : j < keys.length) (vs : List PyStr),
          dictLookup d (keys.get ⟨j, hj⟩) = some vs →
          dictLookup d' (keys.get ⟨j, hj⟩) =
            some (vs ++ rrCol keys.length j T r) := by
  intro T
  induction T with
  | nil =>
    intro r hr d hd
    exact ⟨d, rfl, hd, by intro j hj vs hvs; simpa [rrCol] using hvs⟩
  | cons t T' ih =>
    intro r hr d hd
    have hdrop : keys.drop r = keys.get ⟨r, hr⟩ :: keys.drop (r + 1) :=
      List.drop_eq_get_cons hr
    have hmem : keys.get ⟨r, hr⟩ ∈ d.map Prod.fst := by
      rw [hd]; exact keys.get_mem _ _
    obtain ⟨vsr, hvsr⟩ := dictLookup_isSome_of_mem d _ hmem
    obtain ⟨d₂, happ, hkeys₂, hlook₂, hother₂⟩ := dictAppendTok_spec d _ t vsr hvsr
    have hd₂ : d₂.map Prod.fst = keys := hkeys₂.trans hd
    by_cases hr1 : r + 1 < keys.length
    · obtain ⟨d', hrun, hkeys', hlook'⟩ := ih (r + 1) hr1 d₂ hd₂
      have hmod : (r + 1) % keys.length = r + 1 := Nat.mod_eq_of_lt hr1
      refine ⟨d', ?_, hkeys', ?_⟩
      · rw [hdrop]
        show (match dictAppendTok d (keys.get ⟨r, hr⟩) t with
          | some d₂ => assignTokens keys T' (keys.drop (r + 1)) d₂
          | none => Except.error (PyError.keyError (keys.get ⟨r, hr⟩))) =
            Except.ok d'
        rw [happ]
        exact hrun
      · intro j hj vs hvs
        by_cases hjr : j = r
        · subst hjr
          have hvseq : vsr = vs := by
            rw [hvs] at hvsr
            exact (Option.some.inj hvsr).symm
          subst hvseq
          have hstep : dictLookup d₂ (keys.get ⟨j, hj⟩) = some (vsr ++ [t]) := by
            have : (⟨j, hj⟩ : Fin keys.length) = ⟨j, hr⟩ := rfl
            exact hlook₂
          rw [hlook' j hj _ hstep]
          simp [rrCol, hmod, List.append_assoc]
        · have hne : keys.get ⟨j, hj⟩ ≠ keys.get ⟨r, hr⟩ := by
            intro heq
            have := (List.Nodup.get_inj_iff hnd).mp heq
            exact hjr (by simpa using congrArg Fin.val this)
          have hstep : dictLookup d₂ (keys.get ⟨j, hj⟩) = some vs := by
            rw [hother₂ _ hne, hvs]
          rw [hlook' j hj vs hstep]
          have hrj : r ≠ j := fun h => hjr h.symm
          simp [rrCol, hmod, hrj]
    · have hlen : r + 1 = keys.length := by omega
      have hk0 : 0 < keys.length := by omega
      have hdrop1 : keys.drop (r + 1) = [] := by
        rw [hlen]; simp
      obtain ⟨d', hrun, hkeys', hlook'⟩ := ih 0 hk0 d₂ hd₂
      have hmod : (r + 1) % keys.length = 0 := by
        rw [hlen]; exact Nat.mod_self _
      refine ⟨d', ?_, hkeys', ?_⟩
      · rw [hdrop, hdrop1]
        have hrw : assignTokens keys (t :: T') (keys.get ⟨r, hr⟩ :: []) d =
            assignTokens keys T' [] d₂ := by
          show (match dictAppendTok d (keys.get ⟨r, hr⟩) t with
            | some d₂ => assignTokens keys T' [] d₂
            | none => Except.error (PyError.keyError (keys.get ⟨r, hr⟩))) = _
          rw [happ]
        rw [hrw, assignTokens_refill]
        rw [show keys = keys.drop 0 from (List.drop_zero keys).symm] at hrun ⊢
        exact hrun
      · intro j hj vs hvs
        by_cases hjr : j = r
        · subst hjr
          have hvseq : vsr = vs := by
            rw [hvs] at hvsr
            exact (Option.some.inj hvsr).symm
          subst hvseq
          have hstep : dictLookup d₂ (keys.get ⟨j, hj⟩) = some (vsr ++ [t]) :=
            hlook₂
          rw [hlook' j hj _ hstep]
          simp [rrCol, hmod, List.append_assoc]
        · have hne : keys.get ⟨j, hj⟩ ≠ keys.get ⟨r, hr⟩ := by
            intro heq
            have := (List.Nodup.get_inj_iff hnd).mp heq
            exact hjr (by simpa using congrArg Fin.val this)
          have hstep : dictLookup d₂ (keys.get ⟨j, hj⟩) = some vs := by
            rw [hother₂ _ hne, hvs]
          rw [hlook' j hj vs hstep]
          have hrj : r ≠ j := fun h => hjr h.symm
          simp [rrCol, hmod, hrj]

lemma rrCol_append (k j : Nat) (A B : List α) :
    ∀ r : Nat, r < k →
      rrCol k j (A ++ B) r = rrCol k j A r ++ rrCol k j B ((r + A.length) % k) := by
  induction A with
  | nil =>
    intro r hr
    simp [rrCol, Nat.mod_eq_of_lt hr]
  | cons a A' ih =>
    intro r hr
    have hk : 0 < k := by omega
    have hmod : (r + 1) % k < k := Nat.mod_lt _ hk
    have harith : ((r + 1) % k + A'.length) % k = (r + (a :: A').length) % k := by
      rw [Nat.mod_add_mod]
      congr 1
      simp only [List.length_cons]
      omega
    calc rrCol k j ((a :: A') ++ B) r
        = (if r = j then [a] else []) ++ rrCol k j (A' ++ B) ((r + 1) % k) := rfl
      _ = (if r = j then [a] else []) ++
            (rrCol k j A' ((r + 1) % k) ++
              rrCol k j B (((r + 1) % k + A'.length) % k)) := by
          rw [ih ((r + 1) % k) hmod]
      _ = (if r = j then [a] else []) ++
            (rrCol k j A' ((r + 1) % k) ++
              rrCol k j B ((r + (a :: A').length) % k)) := by
          rw [harith]
      _ = ((if r = j then [a] else []) ++ rrCol k j A' ((r + 1) % k)) ++
            rrCol k j B ((r + (a :: A').length) % k) := by
          rw [List.append_assoc]
      _ = rrCol k j (a :: A') r ++ rrCol k j B ((r + (a :: A').length) % k) := rfl

lemma rrCol_short (k j : Nat) (row : List α) :
    ∀ r : Nat, r + row.length ≤ k →
      rrCol k j row r =
        if r ≤ j ∧ j < r + row.length then (row.get? (j - r)).toList else [] := by
  induction row with
  | nil =>
    intro r hr
    have : ¬ (r ≤ j ∧ j < r + 0) := by omega
    simp [rrCol, this]
  | cons a row' ih =>
    intro r hr
    by_cases hrow' : row' = []
    · subst hrow'
      by_cases hj : r = j
      · subst hj
        have : r ≤ r ∧ r < r + [a].length := by simp
        simp [rrCol, this]
      · have hcond : ¬ (r ≤ j ∧ j < r + [a].length) := by
          simp only [List.length_cons, List.length_nil]
          omega
        have hL : rrCol k j [a] r = [] := by simp [rrCol, hj]
        rw [hL, if_neg hcond]
    · have hlt : r + 1 < k := by
        have : 1 ≤ row'.length := by
          cases row' with
          | nil => exact absurd rfl hrow'
          | cons b l => simp
        simp only [List.length_cons] at hr
        omega
      have hmod : (r + 1) % k = r + 1 := Nat.mod_eq_of_lt hlt
      have hrec := ih (r + 1) (by simp only [List.length_cons] at hr; omega)
      by_cases hj : r = j
      · subst hj
        have hcond : r ≤ r ∧ r < r + (a :: row').length := by simp
        have hnotrec : ¬ (r + 1 ≤ r ∧ r < r + 1 + row'.length) := by omega
        simp [rrCol, hmod, hrec, hnotrec, hcond]
      · simp only [rrCol, hmod, if_neg hj, List.nil_append, hrec]
        by_cases hcond : r + 1 ≤ j ∧ j < r + 1 + row'.length
        · have hcond' : r ≤ j ∧ j < r + (a :: row').length := by
            simp only [List.length_cons]
            omega
          rw [if_pos hcond, if_pos hcond']
          have hjr : j - r = (j - (r + 1)) + 1 := by omega
          rw [hjr]
          rfl
        · have hcond' : ¬ (r ≤ j ∧ j < r + (a :: row').length) := by
            simp only [List.length_cons]
            omega
          rw [if_neg hcond, if_neg hcond']

lemma rrCol_length (k j : Nat) (hj : j < k) (n : Nat) :
    ∀ T : List α, T.length = n * k → (rrCol k j T 0).length = n := by
  induction n with
  | zero =>
    intro T hT
    have : T = [] := List.length_eq_zero.mp (by omega)
    subst this
    rfl
  | succ n ih =>
    intro T hT
    have hk : 0 < k := by omega
    have htake : (T.take k).length = k := by
      rw [List.length_take]
      have : k ≤ T.length := by
        rw [hT]
        calc k = 1 * k := by omega
        _ ≤ (n + 1) * k := by
          apply Nat.mul_le_mul_right
          omega
      omega
    have hdroplen : (T.drop k).length = n * k := by
      rw [List.length_drop, hT]
      have : (n + 1) * k = n * k + k := by ring
      omega
    have hsplit : T = T.take k ++ T.drop k := (List.take_append_drop k T).symm
    rw [hsplit, rrCol_append k j (T.take k) (T.drop k) 0 hk]
    rw [List.length_append]
    have h1 : (rrCol k j (T.take k) 0).length = 1 := by
      rw [rrCol_short k j (T.take k) 0 (by omega)]
      have hcond : 0 ≤ j ∧ j < 0 + (T.take k).length := by omega
      rw [if_pos hcond]
      have hjlt : j < (T.take k).length := by omega
      have hj0 : j - 0 = j := by omega
      rw [hj0, List.get?_eq_get hjlt]
      rfl
    have h2 : (rrCol k j (T.drop k) ((0 + (T.take k).length) % k)).length = n := by
      rw [htake]
      have : (0 + k) % k = 0 := by
        simp [Nat.mod_self]
      rw [this]
      exact ih (T.drop k) hdroplen
    omega

lemma dictInsert_absent [DecidableEq κ] (d : List (κ × α)) (key : κ) (v : α)
    (h : dictLookup d key = none) : dictInsert d key v = d ++ [(key, v)] := by
  induction d with
  | nil => rfl
  | cons kv rest ih =>
    obtain ⟨k, w⟩ := kv
    by_cases hk : k = key
    · simp [dictLookup, hk] at h
    · have h' : dictLookup rest key = none := by
        simpa [dictLookup, hk] using h
      simp [dictInsert, hk, ih h']

lemma dictLookup_append_left_none [DecidableEq κ] (d1 d2 : List (κ × α))
    (key : κ) (h : dictLookup d1 key = none) :
    dictLookup (d1 ++ d2) key = dictLookup d2 key := by
  induction d1 with
  | nil => rfl
  | cons kv rest ih =>
    obtain ⟨k, w⟩ := kv
    by_cases hk : k = key
    · simp [dictLookup, hk] at h
    · have h' : dictLookup rest key = none := by
        simpa [dictLookup, hk] using h
      simp [dictLookup, hk, ih h']

lemma foldl_insert_fresh (keys : List PyStr) :
    ∀ d : List (PyStr × List PyStr), keys.Nodup →
      (∀ k ∈ keys, dictLookup d k = none) →
      keys.foldl (fun d k => dictInsert d k []) d =
        d ++ keys.map (fun k => (k, [])) := by
  induction keys with
  | nil => intro d _ _; simp
  | cons k ks ih =>
    intro d hnd hfresh
    have hk : dictLookup d k = none := hfresh k (List.mem_cons_self _ _)
    rw [List.foldl_cons, dictInsert_absent d k [] hk]
    rw [ih (d ++ [(k, [])]) (List.nodup_cons.mp hnd).2 ?_]
    · simp
    · intro k' hk'
      have h1 : dictLookup d k' = none := hfresh k' (List.mem_cons_of_mem _ hk')
      rw [dictLookup_append_left_none d _ k' h1]
      have hne : k ≠ k' := by
        intro he
        exact (List.nodup_cons.mp hnd).1 (he ▸ hk')
      simp [dictLookup, hne]

lemma dictLookup_map_nil (keys : List PyStr) (key : PyStr) (h : key ∈ keys) :
    dictLookup (keys.map (fun k => (k, ([] : List PyStr)))) key = some [] := by
  induction keys with
  | nil => simp at h
  | cons k ks ih =>
    by_cases hk : k = key
    · simp [dictLookup, hk]
    · have hmem : key ∈ ks := by
        rcases List.mem_cons.mp h with h | h
        · exact absurd h.symm hk
        · exact h
      simp [dictLookup, hk, ih hmem]

lemma takeWhile_all_front {p : α → Bool} (A B : List α)
    (hA : ∀ a ∈ A, p a = true) (hB : ∀ b ∈ B, p b = false) :
    (A ++ B).takeWhile p = A ∧ (A ++ B).dropWhile p = B := by
  induction A with
  | nil =>
    cases B with
    | nil => simp
    | cons b B' =>
      have hb : p b = false := hB b (List.mem_cons_self _ _)
      simp [List.takeWhile, List.dropWhile, hb]
  | cons a A' ih =>
    have ha : p a = true := hA a (List.mem_cons_self _ _)
    have ih' := ih (fun a' ha' => hA a' (List.mem_cons_of_mem _ ha'))
    simp [List.takeWhile, List.dropWhile, ha, ih'.1, ih'.2]

/-- C2: `_deserialize_looped` on `k` declared (distinct) column-name lines
followed by data lines whose tokens number `n * k` in total assigns the
tokens to the columns in strict round-robin order over the declared
sequence (`rrCol`), producing exactly `n` rows per column, in declaration
order, independent of how the tokens are distributed over the data lines
(only the flattened token list matters). -/
theorem c2_round_robin (keyLines dataLines : List PyStr) (keys : List PyStr)
    (ew : Bool) (n : Nat)
    (hkl : ∀ l ∈ keyLines, l.head? = some '_')
    (hdl : ∀ l ∈ dataLines, ¬ l.head? = some '_')
    (hparse : keyLines.mapM loopKeyOf = Except.ok keys)
    (hnd : keys.Nodup) (hk1 : keys ≠ [])
    (htoks : ((dataLines.map (tokenizeLine ew)).flatten).length = n * keys.length) :
    ∃ d, deserializeLooped (keyLines ++ dataLines) ew = .ok d
      ∧ d.map Prod.fst = keys
      ∧ ∀ (j : Nat) (hj : j < keys.length),
          dictLookup d (keys.get ⟨j, hj⟩) =
            some (rrCol keys.length j
              ((dataLines.map (tokenizeLine ew)).flatten) 0)
          ∧ (rrCol keys.length j
              ((dataLines.map (tokenizeLine ew)).flatten) 0).length = n := by
  have hsplit := takeWhile_all_front keyLines dataLines
    (by intro a ha; exact decide_eq_true (hkl a ha))
    (by intro b hb; exact decide_eq_false (hdl b hb))
  have hkpos : 0 < keys.length := by
    cases keys with
    | nil => exact absurd rfl hk1
    | cons k ks => simp
  have hd0 : keys.foldl (fun d k => dictInsert d k ([] : List PyStr)) [] =
      keys.map (fun k => (k, ([] : List PyStr))) := by
    have := foldl_insert_fresh keys [] hnd (fun k _ => rfl)
    simpa using this
  have hd0keys : (keys.map (fun k => (k, ([] : List PyStr)))).map Prod.fst = keys := by
    clear hsplit hkl hdl hparse hnd hk1 htoks hkpos hd0
    induction keys with
    | nil => rfl
    | cons k ks ih =>
      simp only [List.map_cons]
      rw [ih]
  obtain ⟨d, hrun, hdkeys, hlook⟩ :=
    assignTokens_rr keys hnd ((dataLines.map (tokenizeLine ew)).flatten) 0 hkpos
      (keys.map (fun k => (k, []))) hd0keys
  refine ⟨d, ?_, hdkeys, ?_⟩
  · unfold deserializeLooped
    rw [hsplit.1, hsplit.2]
    dsimp only
    rw [hparse]
    show assignTokens keys ((dataLines.map (tokenizeLine ew)).flatten) []
        (keys.foldl (fun d k => dictInsert d k ([] : List PyStr)) []) = Except.ok d
    rw [hd0, assignTokens_refill]
    rw [List.drop_zero] at hrun
    exact hrun
  · intro j hj
    have hinit : dictLookup (keys.map (fun k => (k, ([] : List PyStr))))
        (keys.get ⟨j, hj⟩) = some [] :=
      dictLookup_map_nil keys _ (keys.get_mem _ _)
    have := hlook j hj [] hinit
    simp only [List.nil_append] at this
    exact ⟨this, rrCol_length keys.length j hj n _ htoks⟩

/-- C2 (witness): 3 declared columns and 9 tokens spread over data lines of
2, 5 and 2 tokens parse into exactly 3 rows per column. -/
theorem c2_witness :
    ∃ d, deserializeLooped
        ([strL "_cat.c1", strL "_cat.c2", strL "_cat.c3"] ++
          [strL "a b", strL "c d e f g", strL "h i"]) true = .ok d
      ∧ d.map Prod.fst = [strL "c1", strL "c2", strL "c3"]
      ∧ ∀ (j : Nat) (hj : j < ([strL "c1", strL "c2", strL "c3"] : List PyStr).length),
          dictLookup d (([strL "c1", strL "c2", strL "c3"] : List PyStr).get ⟨j, hj⟩) =
            some (rrCol ([strL "c1", strL "c2", strL "c3"] : List PyStr).length j
              (([strL "a b", strL "c d e f g", strL "h i"].map (tokenizeLine true)).flatten) 0)
          ∧ (rrCol ([strL "c1", strL "c2", strL "c3"] : List PyStr).length j
              (([strL "a b", strL "c d e f g", strL "h i"].map (tokenizeLine true)).flatten) 0).length = 3 :=
  c2_round_robin [strL "_cat.c1", strL "_cat.c2", strL "_cat.c3"]
    [strL "a b", strL "c d e f g", strL "h i"]
    [strL "c1", strL "c2", strL "c3"] true 3
    (by decide) (by decide) rfl (by decide) (by decide) (by decide)

/-- `_is_empty` of `cif.py`: blank or comment line (the `or` short-circuits,
so `line[0]` is only read on non-blank lines). -/
def _is_empty (l : PyStr) : Bool :=
  (pyStrip l).isEmpty || l.head? = some '#'

/-- `_is_loop_start`: `line.startswith("loop_")`. -/
def _is_loop_start (l : PyStr) : Bool :=
  l.take 5 = strL "loop_"

/-- `_parse_data_block_name`: `line[5:]` when the line starts with
`"data_"`, else `None`. -/
def _parse_data_block_name (l : PyStr) : Option PyStr :=
  if l.take 5 = strL "data_" then some (l.drop 5) else none

/-- `_parse_category_name`: `None` unless the line starts with `'_'`; then
`line[1 : line.find(".")]` — the name up to the first `'.'`, or, `find`
returning `-1` when there is no `'.'`, `line[1:-1]` (the source quirk is
embedded faithfully). Callers only pass non-blank lines. -/
def _parse_category_name (l : PyStr) : Option PyStr :=
  match l with
  | [] => none
  | c :: _ =>
    if c ≠ '_' then none
    else if l.contains '.' then some ((l.drop 1).takeWhile (fun x => x ≠ '.'))
    else some ((l.drop 1).dropLast)

/-- The inner loop of `_to_single` collecting a `;`-delimited multiline
value: lines are appended (line breaks preserved) until a line equal to
`";"`; `none` models the `IndexError` of an unterminated block. -/
def collectMulti : PyStr → List PyStr → Option (PyStr × List PyStr)
  | _, [] => none
  | cur, l :: rest =>
    if l = [';'] then some (cur, rest)
    else collectMulti (cur ++ '\n' :: l) rest

/-- `_to_single` of `cif.py`, with fuel (each step consumes at least one
input line, so `length` fuel suffices). `acc` holds the processed lines in
reverse. A line opening with `';'` starts a multiline value, quoted and
emitted as its own line in looped mode or appended to the previous line in
single mode; in single mode a line not starting with `'_'` is appended to
the previous line; every other line is emitted as-is. `none` models the
source's unguarded failures (unterminated multiline block; continuation
with no previous line, which hits the `None` placeholder). -/
def toSingleF (isLooped : Bool) : Nat → List PyStr → List PyStr →
    Option (List PyStr)
  | _, acc, [] => some acc.reverse
  | 0, _, _ => none
  | fuel + 1, acc, line :: rest =>
    if line.head? = some ';' then
      match collectMulti (line.drop 1) rest with
      | none => none
      | some (multi, rest2) =>
        if isLooped then toSingleF isLooped fuel (_quote multi :: acc) rest2
        else
          match acc with
          | prev :: acc' =>
            toSingleF isLooped fuel ((prev ++ ' ' :: _quote multi) :: acc') rest2
          | [] => none
    else if isLooped = false ∧ ¬ line.head? = some '_' then
      match acc with
      | prev :: acc' => toSingleF isLooped fuel ((prev ++ ' ' :: line) :: acc') rest
      | [] => none
    else
      toSingleF isLooped fuel (line :: acc) rest

def _to_single (lines : List PyStr) (isLooped : Bool) : Option (List PyStr) :=
  toSingleF isLooped lines.length [] lines

/-- `CIFColumn(value)` for a single string value. -/
def mkColumnFromStr (s : PyStr) : CIFColumn :=
  mkCIFColumnNoMask ⟨[CIFValue.str s]⟩

/-- `CIFCategory._deserialize_single`: per line, split into fields, the
column name is the part of `parts[0]` after the first `'.'`, the value is
`parts[1]` (`IndexError` when either part is missing). -/
def deserializeSingleAux : List PyStr → List (PyStr × CIFColumn) →
    Except PyError (List (PyStr × CIFColumn))
  | [], d => .ok d
  | line :: rest, d =>
    match (_split_one_line line).get? 0, (_split_one_line line).get? 1 with
    | some p0, some p1 =>
      match (pySplitOn '.' p0).get? 1 with
      | some colName =>
        deserializeSingleAux rest (dictInsert d colName (mkColumnFromStr p1))
      | none => .error (.indexError (strL "list index out of range"))
    | _, _ => .error (.indexError (strL "list index out of range"))

def deserializeSingle (lines : List PyStr) :
    Except PyError (List (PyStr × CIFColumn)) :=
  deserializeSingleAux lines []

/-- `CIFCategory.deserialize`: strip blank/comment lines, detect and pop a
leading `loop_` marker, parse the category name from the (remaining) first
line, normalize multiline values, then parse in looped or single mode; the
looped raw value lists are coerced to `CIFColumn`s by the constructor. -/
def CIFCategory.deserialize (text : PyStr) (ew : Bool) :
    Except PyError CIFCategory :=
  let lines := ((splitlines text).filter (fun l => !_is_empty l)).map pyStrip
  match lines with
  | [] => .error (.indexError (strL "list index out of range"))
  | l0 :: rest =>
    let isLooped := _is_loop_start l0
    let lines2 := if isLooped then rest else l0 :: rest
    match lines2 with
    | [] => .error (.indexError (strL "list index out of range"))
    | m0 :: _ =>
      match _parse_category_name m0 with
      | none => .error (.deserializationError (strL "Failed to parse category name"))
      | some catName =>
        match _to_single lines2 isLooped with
        | none => .error (.indexError (strL "multiline value parsing failed"))
        | some singled =>
          if isLooped then
            match deserializeLooped singled ew with
            | .error e => .error e
            | .ok dict =>
              match dict.mapM (fun (kc : PyStr × List PyStr) =>
                  (mkColumnFromStrs kc.2).map (fun c => (kc.1, c))) with
              | .error e => .error e
              | .ok cols => .ok ⟨some catName, none, cols⟩
          else
            match deserializeSingle singled with
            | .error e => .error e
            | .ok cols => .ok ⟨some catName, none, cols⟩

/-- A slot of a `CIFBlock`: raw unparsed text or a cached parsed category. -/
inductive BlockSlot
  | raw (t : PyStr)
  | parsed (c : CIFCategory)
deriving DecidableEq

/-- `CIFBlock`: the ordered category dict. A key is `Option PyStr` because
the boundary scan of `CIFBlock.deserialize` can record Python `None` as a
category name (a `loop_` line whose next line is not a category). -/
structure CIFBlock where
  categories : List (Option PyStr × BlockSlot)
deriving DecidableEq

/-- `CIFBlock.__getitem__`: return the cached category, or parse the raw
text (with the fast tokenizer opt-in for `atom_site`), cache and return it;
any parse failure is re-raised as a `DeserializationError` naming the
category, leaving the slot unchanged. -/
def CIFBlock.getitem (blk : CIFBlock) (key : PyStr) :
    Except PyError CIFCategory × CIFBlock :=
  match dictLookup blk.categories (some key) with
  | none => (.error (.keyError key), blk)
  | some (BlockSlot.parsed c) => (.ok c, blk)
  | some (BlockSlot.raw t) =>
    match CIFCategory.deserialize t (!(key = strL "atom_site")) with
    | .error _ =>
      (.error (.deserializationError
        (strL "Failed to deserialize category '" ++ key ++ strL "'")), blk)
    | .ok c =>
      (.ok c, ⟨dictInsert blk.categories (some key) (BlockSlot.parsed c)⟩)

/-- One element of `CIFBlock.serialize`: a raw slot is emitted verbatim
(and nothing else); a parsed category gets its name field forced to the
dict key, is serialized (any failure re-raised as a `SerializationError`
naming the category), and is followed by a `#` comment line. -/
def blockSlotSerialize (key : Option PyStr) (slot : BlockSlot) :
    Except PyError PyStr :=
  match slot with
  | .raw t => .ok t
  | .parsed c =>
    match (CIFCategory.serialize { c with name := key }).1 with
    | .error _ =>
      .error (.serializationError
        (strL "Failed to serialize category '" ++
          (match key with | some k => k | none => strL "None") ++ strL "'"))
    | .ok t => .ok (t ++ strL "#\n")

def blockSerializeAux : List (Option PyStr × BlockSlot) →
    Except PyError (List PyStr)
  | [] => .ok []
  | (key, slot) :: rest =>
    match blockSlotSerialize key slot with
    | .error e => .error e
    | .ok t =>
      match blockSerializeAux rest with
      | .error e => .error e
      | .ok ts => .ok (t :: ts)

/-- `CIFBlock.serialize`: concatenation of the per-category text blocks. -/
def CIFBlock.serialize (blk : CIFBlock) : Except PyError PyStr :=
  (blockSerializeAux blk.categories).map joinEmpty

/-- The boundary scan of `CIFBlock.deserialize`: a non-blank line starts a
new category when it is a `loop_` line (the name is then read from the NEXT
line — `IndexError` when there is none) or introduces a category name
different from the current one; records `(line index, name)` pairs. -/
def scanCategories : List PyStr → Nat → Option PyStr →
    Except PyError (List (Nat × Option PyStr))
  | [], _, _ => .ok []
  | line :: rest, i, current =>
    if _is_empty line then scanCategories rest (i + 1) current
    else
      let isLoop := _is_loop_start line
      let nameInLine := _parse_category_name line
      if isLoop ∨ (¬ nameInLine = current ∧ ¬ nameInLine = none) then
        if isLoop then
          match rest with
          | [] => .error (.indexError (strL "list index out of range"))
          | nxt :: _ =>
            let nm := _parse_category_name nxt
            match scanCategories rest (i + 1) nm with
            | .error e => .error e
            | .ok pairs => .ok ((i, nm) :: pairs)
        else
          match scanCategories rest (i + 1) nameInLine with
          | .error e => .error e
          | .ok pairs => .ok ((i, nameInLine) :: pairs)
      else scanCategories rest (i + 1) current

/-- `_create_element_dict`: map each recorded name to the `"\n"`-joined
slice of lines from its start to the next start (exclusive; the last slice
runs to the end). Built with dict semantics (a duplicate name overwrites,
keeping the first position). -/
def createElementDictAux [DecidableEq κ] (lines : List PyStr) :
    List (Nat × κ) → List (κ × PyStr) → List (κ × PyStr)
  | [], d => d
  | (start, name) :: rest, d =>
    let stop := match rest with
      | (s, _) :: _ => s
      | [] => lines.length
    createElementDictAux lines rest
      (dictInsert d name (joinNl ((lines.drop start).take (stop - start))))

def createElementDict [DecidableEq κ] (lines : List PyStr)
    (pairs : List (Nat × κ)) : List (κ × PyStr) :=
  createElementDictAux lines pairs []

/-- `CIFBlock.deserialize`: locate category boundaries and store each
category's raw text span, unparsed. -/
def CIFBlock.deserialize (text : PyStr) : Except PyError CIFBlock :=
  let lines := splitlines text
  match scanCategories lines 0 none with
  | .error e => .error e
  | .ok pairs =>
    .ok ⟨(createElementDict lines pairs).map (fun kv => (kv.1, BlockSlot.raw kv.2))⟩

/-- A slot of a `CIFFile`: raw unparsed block text or a cached parsed block. -/
inductive FileSlot
  | raw (t : PyStr)
  | parsed (b : CIFBlock)
deriving DecidableEq

/-- `CIFFile`: the ordered block dict. -/
structure CIFFile where
  blocks : List (PyStr × FileSlot)
deriving DecidableEq

/-- The block scan of `CIFFile.deserialize`: every non-blank `data_` line
starts a block span (the span INCLUDES the `data_` line itself). -/
def scanBlocks : List PyStr → Nat → List (Nat × PyStr)
  | [], _ => []
  | line :: rest, i =>
    if _is_empty line then scanBlocks rest (i + 1)
    else
      match _parse_data_block_name line with
      | some nm => (i, nm) :: scanBlocks rest (i + 1)
      | none => scanBlocks rest (i + 1)

/-- `CIFFile.deserialize`: locate `data_` lines and store raw block spans. -/
def CIFFile.deserialize (text : PyStr) : CIFFile :=
  let lines := splitlines text
  ⟨(createElementDict lines (scanBlocks lines 0)).map
    (fun kv => (kv.1, FileSlot.raw kv.2))⟩

/-- `CIFFile.__getitem__`: cached block, or parse-and-cache with failures
re-raised as a `DeserializationError` naming the block; the slot is
unchanged on failure. -/
def CIFFile.getitem (f : CIFFile) (key : PyStr) :
    Except PyError CIFBlock × CIFFile :=
  match dictLookup f.blocks key with
  | none => (.error (.keyError key), f)
  | some (FileSlot.parsed b) => (.ok b, f)
  | some (FileSlot.raw t) =>
    match CIFBlock.deserialize t with
    | .error _ =>
      (.error (.deserializationError
        (strL "Failed to deserialize block '" ++ key ++ strL "'")), f)
    | .ok b =>
      (.ok b, ⟨dictInsert f.blocks key (FileSlot.parsed b)⟩)

/-- One element of `CIFFile.serialize`: always the `data_` header line and a
`#` comment line, then the raw span verbatim or the parsed block's own
serialization (failures re-raised as `SerializationError` naming the
block). -/
def fileSlotSerialize (key : PyStr) (slot : FileSlot) : Except PyError PyStr :=
  match slot with
  | .raw t => .ok (strL "data_" ++ key ++ strL "\n" ++ strL "#\n" ++ t)
  | .parsed b =>
    match CIFBlock.serialize b with
    | .error _ =>
      .error (.serializationError
        (strL "Failed to serialize block '" ++ key ++ strL "'"))
    | .ok t => .ok (strL "data_" ++ key ++ strL "\n" ++ strL "#\n" ++ t)

def fileSerializeAux : List (PyStr × FileSlot) → Except PyError (List PyStr)
  | [] => .ok []
  | (key, slot) :: rest =>
    match fileSlotSerialize key slot with
    | .error e => .error e
    | .ok t =>
      match fileSerializeAux rest with
      | .error e => .error e
      | .ok ts => .ok (t :: ts)

/-- `CIFFile.serialize`: per-block text (header, comment, content) joined,
with a forced terminal (empty) piece. -/
def CIFFile.serialize (f : CIFFile) : Except PyError PyStr :=
  (fileSerializeAux f.blocks).map joinEmpty

lemma dictLookup_insert_self [DecidableEq κ] (d : List (κ × α)) (key : κ)
    (v : α) : dictLookup (dictInsert d key v) key = some v := by
  induction d with
  | nil => simp [dictInsert, dictLookup]
  | cons kv rest ih =>
    obtain ⟨k, w⟩ := kv
    by_cases hk : k = key
    · simp [dictInsert, dictLookup, hk]
    · simp [dictInsert, dictLookup, hk, ih]

/-- C7: when a lazy slot of a block (resp. file) still holds raw text and
parsing it fails, `__getitem__` raises a `DeserializationError` naming the
offending category (resp. block) and the container — including the raw
slot — is unchanged. -/
theorem c7_lazy_failure_keeps_raw :
    (∀ (blk : CIFBlock) (key t : PyStr),
      dictLookup blk.categories (some key) = some (BlockSlot.raw t) →
      (∃ e, CIFCategory.deserialize t (!(key = strL "atom_site")) =
        .error e) →
      CIFBlock.getitem blk key =
        (.error (.deserializationError
          (strL "Failed to deserialize category '" ++ key ++ strL "'")), blk))
    ∧ (∀ (f : CIFFile) (key t : PyStr),
      dictLookup f.blocks key = some (FileSlot.raw t) →
      (∃ e, CIFBlock.deserialize t = .error e) →
      CIFFile.getitem f key =
        (.error (.deserializationError
          (strL "Failed to deserialize block '" ++ key ++ strL "'")), f)) := by
  constructor
  · intro blk key t hslot ⟨e, he⟩
    unfold CIFBlock.getitem
    rw [hslot]
    dsimp only
    rw [he]
  · intro f key t hslot ⟨e, he⟩
    unfold CIFFile.getitem
    rw [hslot]
    dsimp only
    rw [he]

/-- C7 (witness): a raw category slot holding `"garbage"` (no parsable
category name) and a raw block slot holding a bare `"loop_"` line (the
boundary scan reads past the end) both fail and leave the container
unchanged. -/
theorem c7_witness :
    CIFBlock.getitem ⟨[(some (strL "g"), BlockSlot.raw (strL "garbage"))]⟩
        (strL "g") =
      (.error (.deserializationError
        (strL "Failed to deserialize category '" ++ strL "g" ++ strL "'")),
        ⟨[(some (strL "g"), BlockSlot.raw (strL "garbage"))]⟩)
    ∧ CIFFile.getitem ⟨[(strL "B", FileSlot.raw (strL "loop_"))]⟩ (strL "B") =
      (.error (.deserializationError
        (strL "Failed to deserialize block '" ++ strL "B" ++ strL "'")),
        ⟨[(strL "B", FileSlot.raw (strL "loop_"))]⟩) :=
  ⟨c7_lazy_failure_keeps_raw.1 _ (strL "g") (strL "garbage") rfl ⟨_, rfl⟩,
    c7_lazy_failure_keeps_raw.2 _ (strL "B") (strL "loop_") rfl ⟨_, rfl⟩⟩

/-- C8 (counterexample): lazy parse-and-cache DOES change the serialized
output. A block slot holding the raw text `"_foo.a 1\n#"` serializes
verbatim before access; after one successful access the parsed category is
re-serialized with canonical padding and a trailing `#` comment line plus
newline, giving different text. -/
theorem c8_counterexample :
    ∃ c b1,
      CIFBlock.getitem ⟨[(some (strL "foo"), BlockSlot.raw (strL "_foo.a 1\n#"))]⟩
        (strL "foo") = (.ok c, b1)
      ∧ CIFBlock.serialize ⟨[(some (strL "foo"), BlockSlot.raw (strL "_foo.a 1\n#"))]⟩ =
          .ok (strL "_foo.a 1\n#")
      ∧ CIFBlock.serialize b1 = .ok (strL "_foo.a   1\n#\n")
      ∧ ¬ (strL "_foo.a 1\n#") = (strL "_foo.a   1\n#\n") :=
  ⟨_, _, rfl, rfl, rfl, by decide⟩

/-- C8 (amended): repeated `get` on the same lazy slot returns an object
equal to (indeed, the same as) the first-returned object, and the container
state reached by the first successful access is a fixed point of further
accesses; the serialized-output-invariance half of the claim is false (see
the counterexample): re-serialization after a lazy parse canonicalizes the
text. -/
theorem c8_get_idempotent :
    (∀ (blk blk1 : CIFBlock) (key : PyStr) (c : CIFCategory),
      CIFBlock.getitem blk key = (.ok c, blk1) →
      CIFBlock.getitem blk1 key = (.ok c, blk1))
    ∧ (∀ (f f1 : CIFFile) (key : PyStr) (b : CIFBlock),
      CIFFile.getitem f key = (.ok b, f1) →
      CIFFile.getitem f1 key = (.ok b, f1)) := by
  constructor
  · intro blk blk1 key c h
    unfold CIFBlock.getitem at h ⊢
    rcases hslot : dictLookup blk.categories (some key) with _ | slot
    · rw [hslot] at h
      simp at h
    · rw [hslot] at h
      match slot with
      | BlockSlot.parsed c' =>
        have hc' : c' = c := Except.ok.inj (congrArg Prod.fst h)
        have hb : blk = blk1 := congrArg Prod.snd h
        rw [← hb, hslot, ← hc']
      | BlockSlot.raw t =>
        replace h : (match CIFCategory.deserialize t (!(key = strL "atom_site")) with
          | Except.error _ => (Except.error (PyError.deserializationError
              (strL "Failed to deserialize category '" ++ key ++ strL "'")), blk)
          | Except.ok c => (Except.ok c,
              (⟨dictInsert blk.categories (some key) (BlockSlot.parsed c)⟩ :
                CIFBlock))) = (Except.ok c, blk1) := h
        rcases hdes : CIFCategory.deserialize t (!(key = strL "atom_site"))
          with e | c'
        · rw [hdes] at h
          exact absurd (congrArg Prod.fst h) (fun hcon => Except.noConfusion hcon)
        · rw [hdes] at h
          have hc' : c' = c := Except.ok.inj (congrArg Prod.fst h)
          have hb : (⟨dictInsert blk.categories (some key)
              (BlockSlot.parsed c')⟩ : CIFBlock) = blk1 :=
            congrArg Prod.snd h
          rw [← hb, ← hc']
          rw [dictLookup_insert_self]
  · intro f f1 key b h
    unfold CIFFile.getitem at h ⊢
    rcases hslot : dictLookup f.blocks key with _ | slot
    · rw [hslot] at h
      simp at h
    · rw [hslot] at h
      match slot with
      | FileSlot.parsed b' =>
        have hc' : b' = b := Except.ok.inj (congrArg Prod.fst h)
        have hb : f = f1 := congrArg Prod.snd h
        rw [← hb, hslot, ← hc']
      | FileSlot.raw t =>
        replace h : (match CIFBlock.deserialize t with
          | Except.error _ => (Except.error (PyError.deserializationError
              (strL "Failed to deserialize block '" ++ key ++ strL "'")), f)
          | Except.ok b => (Except.ok b,
              (⟨dictInsert f.blocks key (FileSlot.parsed b)⟩ : CIFFile))) =
          (Except.ok b, f1) := h
        rcases hdes : CIFBlock.deserialize t with e | b'
        · rw [hdes] at h
          exact absurd (congrArg Prod.fst h) (fun hcon => Except.noConfusion hcon)
        · rw [hdes] at h
          have hc' : b' = b := Except.ok.inj (congrArg Prod.fst h)
          have hb : (⟨dictInsert f.blocks key (FileSlot.parsed b')⟩ : CIFFile) = f1 :=
            congrArg Prod.snd h
          rw [← hb, ← hc']
          rw [dictLookup_insert_self]

/-- C8 (witness): the parsed slot of the counterexample block is stable
under a second access. -/
theorem c8_witness :
    CIFBlock.getitem
      ⟨[(some (strL "foo"),
        BlockSlot.parsed ⟨some (strL "foo"), none,
          [(strL "a", mkColumnFromStr (strL "1"))]⟩)]⟩ (strL "foo") =
    (.ok ⟨some (strL "foo"), none, [(strL "a", mkColumnFromStr (strL "1"))]⟩,
      ⟨[(some (strL "foo"),
        BlockSlot.parsed ⟨some (strL "foo"), none,
          [(strL "a", mkColumnFromStr (strL "1"))]⟩)]⟩) :=
  c8_get_idempotent.1
    ⟨[(some (strL "foo"),
      BlockSlot.parsed ⟨some (strL "foo"), none,
        [(strL "a", mkColumnFromStr (strL "1"))]⟩)]⟩
    ⟨[(some (strL "foo"),
      BlockSlot.parsed ⟨some (strL "foo"), none,
        [(strL "a", mkColumnFromStr (strL "1"))]⟩)]⟩
    (strL "foo")
    ⟨some (strL "foo"), none, [(strL "a", mkColumnFromStr (strL "1"))]⟩
    rfl

/-- Nonempty string of (ASCII) alphanumeric characters — the value/name
class the restricted round-trip theorem quantifies over. -/
def alnumStr (s : PyStr) : Prop := s ≠ [] ∧ ∀ c ∈ s, c.isAlphanum = true

/-- A token the unquoted-field alternative of the tokenizer reproduces
verbatim: nonempty, no whitespace, no quote characters. -/
def PlainTok (t : PyStr) : Prop :=
  t ≠ [] ∧ ∀ c ∈ t, isWS c = false ∧ ¬ c = '\'' ∧ ¬ c = '"'

lemma alnum_char_facts (c : Char) (h : c.isAlphanum = true) :
    isWS c = false ∧ ¬ c = '\'' ∧ ¬ c = '"' ∧ ¬ c = '_' ∧ ¬ c = '.' ∧
      ¬ c = '#' ∧ ¬ c = ';' ∧ ¬ c = '\n' := by
  refine ⟨?_, ?_, ?_, ?_, ?_, ?_, ?_, ?_⟩
  · by_contra hws
    have hws' : isWS c = true := by
      cases hb : isWS c
      · exact absurd hb hws
      · rfl
    simp only [isWS, Bool.or_eq_true, decide_eq_true_eq] at hws'
    have hcase : c = ' ' ∨ c = '\t' ∨ c = '\n' ∨ c = '\r' ∨ c = '\x0b' ∨
        c = '\x0c' := by tauto
    rcases hcase with h' | h' | h' | h' | h' | h' <;> (subst h'; simp at h)
  · intro he; subst he; simp at h
  · intro he; subst he; simp at h
  · intro he; subst he; simp at h
  · intro he; subst he; simp at h
  · intro he; subst he; simp at h
  · intro he; subst he; simp at h
  · intro he; subst he; simp at h

lemma alnum_plainTok (t : PyStr) (h : alnumStr t) : PlainTok t := by
  obtain ⟨hne, hall⟩ := h
  refine ⟨hne, ?_⟩
  intro c hc
  have := alnum_char_facts c (hall c hc)
  exact ⟨this.1, this.2.1, this.2.2.1⟩

lemma alnum_no_char (t : PyStr) (h : alnumStr t) (c : Char)
    (hc : c.isAlphanum = false) : t.contains c = false := by
  by_contra hcon
  have : t.contains c = true := by
    cases hb : t.contains c
    · exact absurd hb hcon
    · rfl
  have hmem : c ∈ t := by
    simpa [List.contains] using this
  have := h.2 c hmem
  rw [this] at hc
  exact Bool.noConfusion hc

lemma head_mem_of_head? (l : PyStr) (c : Char) (h : l.head? = some c) : c ∈ l := by
  cases l with
  | nil => simp at h
  | cons a rest =>
    simp only [List.head?_cons, Option.some.injEq] at h
    rw [← h]
    exact List.mem_cons_self _ _

lemma quote_alnum_id (s : PyStr) (h : alnumStr s) : _quote s = s := by
  obtain ⟨hne, hall⟩ := h
  have hlen : ¬ s.length = 0 := by
    intro h0
    exact hne (List.length_eq_zero.mp h0)
  have hhead : ∀ q, s.head? = some q → q.isAlphanum = true := by
    intro q hq
    exact hall q (head_mem_of_head? s q hq)
  unfold _quote
  rw [if_neg hlen]
  rw [if_neg (by
    rintro ⟨-, hh, -⟩
    have := hhead _ hh
    simp at this)]
  rw [if_neg (by
    rintro ⟨-, hh, -⟩
    have := hhead _ hh
    simp at this)]
  rw [if_neg (by
    intro hh
    have := hhead _ hh
    simp at this)]
  rw [if_neg (by
    rw [alnum_no_char s ⟨hne, hall⟩ '\'' (by decide)]
    decide)]
  rw [if_neg (by
    rw [alnum_no_char s ⟨hne, hall⟩ '"' (by decide)]
    decide)]
  rw [if_neg (by
    rw [alnum_no_char s ⟨hne, hall⟩ ' ' (by decide)]
    decide)]
  rw [if_neg (by
    rw [alnum_no_char s ⟨hne, hall⟩ '\t' (by decide)]
    decide)]
  rw [if_neg (by
    rw [alnum_no_char s ⟨hne, hall⟩ '\n' (by decide)]
    decide)]

lemma multiline_id (s : PyStr) (h : s.contains '\n' = false) :
    _multiline s = s := by
  unfold _multiline
  rw [if_neg (by rw [h]; decide)]

lemma quote_multiline_alnum_id (s : PyStr) (h : alnumStr s) :
    _multiline (_quote s) = s := by
  rw [quote_alnum_id s h,
    multiline_id s (alnum_no_char s h '\n' (by decide))]

lemma takedrop_append_all {p : α → Bool} (A B : List α)
    (hA : ∀ a ∈ A, p a = true) :
    (A ++ B).takeWhile p = A ++ B.takeWhile p ∧
    (A ++ B).dropWhile p = B.dropWhile p := by
  induction A with
  | nil => simp
  | cons a A' ih =>
    have ha : p a = true := hA a (List.mem_cons_self _ _)
    have ih' := ih (fun a' ha' => hA a' (List.mem_cons_of_mem _ ha'))
    simp [List.takeWhile, List.dropWhile, ha, ih'.1, ih'.2]

lemma matchQuoted_rest_length (q : Char) (cs g rest2 : PyStr)
    (h : matchQuoted q cs = some (g, rest2)) : rest2.length < cs.length := by
  match cs with
  | [] => simp [matchQuoted] at h
  | c :: rest =>
    replace h : (if c = q then
        match tryClose q rest (starLen q rest) with
        | some (m, ws) => some (q :: (rest.take m ++ [q]),
            rest.drop (m + 1 + if ws = true then 1 else 0))
        | none => none
      else none) = some (g, rest2) := h
    by_cases hc : c = q
    · rw [if_pos hc] at h
      rcases htc : tryClose q rest (starLen q rest) with _ | ⟨m, ws⟩
      · rw [htc] at h; simp at h
      · rw [htc] at h
        simp only [Option.some.injEq, Prod.mk.injEq] at h
        have hr : rest2 = rest.drop (m + 1 + if ws = true then 1 else 0) :=
          h.2.symm
        rw [hr]
        have hle : (rest.drop (m + 1 + if ws = true then 1 else 0)).length ≤
            rest.length := by
          rw [List.length_drop]
          omega
        simp only [List.length_cons]
        omega
    · rw [if_neg hc] at h
      simp at h

lemma length_dropWhile_le' (p : α → Bool) (l : List α) :
    (l.dropWhile p).length ≤ l.length := by
  induction l with
  | nil => simp
  | cons a l ih =>
    by_cases h : p a
    · simp only [List.dropWhile, h, if_pos]
      simp only [List.length_cons]
      omega
    · simp [List.dropWhile, h]

lemma dropWhile_nonws_head_length (c : Char) (rest : PyStr)
    (hc : isWS c = false) :
    ((c :: rest).dropWhile (fun x => !isWS x)).length ≤ rest.length := by
  have hstep : (c :: rest).dropWhile (fun x => !isWS x) =
      rest.dropWhile (fun x => !isWS x) := by
    simp [List.dropWhile, hc]
  rw [hstep]
  exact length_dropWhile_le' _ _

lemma splitFieldsF_fuel : ∀ (f1 : Nat) (cs : PyStr) (f2 : Nat),
    cs.length ≤ f1 → cs.length ≤ f2 →
    splitFieldsF f1 cs = splitFieldsF f2 cs := by
  intro f1
  induction f1 with
  | zero =>
    intro cs f2 h1 _
    have : cs = [] := List.length_eq_zero.mp (by omega)
    subst this
    cases f2 with
    | zero => rfl
    | succ g => rfl
  | succ f1' ih =>
    intro cs f2 h1 h2
    match cs with
    | [] =>
      cases f2 with
      | zero => rfl
      | succ g => rfl
    | c :: rest =>
      have hf2 : ∃ g, f2 = g + 1 := by
        cases f2 with
        | zero => simp at h2
        | succ g => exact ⟨g, rfl⟩
      obtain ⟨g, rfl⟩ := hf2
      simp only [List.length_cons] at h1 h2
      show splitFieldsF (f1' + 1) (c :: rest) = splitFieldsF (g + 1) (c :: rest)
      simp only [splitFieldsF]
      by_cases hq : c = '\'' ∨ c = '"'
      · rw [if_pos hq, if_pos hq]
        rcases hm : matchQuoted c (c :: rest) with _ | ⟨gr, rest2⟩
        · simp only [hm]
          have hqws : isWS c = false := by
            rcases hq with hq | hq <;> (subst hq; rfl)
          have hlt := dropWhile_nonws_head_length c rest hqws
          rw [ih _ g (by omega) (by omega)]
        · simp only [hm]
          have hlt := matchQuoted_rest_length c (c :: rest) gr rest2 hm
          simp only [List.length_cons] at hlt
          rw [ih rest2 g (by omega) (by omega)]
      · rw [if_neg hq, if_neg hq]
        by_cases hw : isWS c
        · rw [if_pos hw, if_pos hw]
          exact ih rest g (by omega) (by omega)
        · rw [if_neg hw, if_neg hw]
          have hwf : isWS c = false := by
            cases hb : isWS c
            · rfl
            · exact absurd hb hw
          have hlt := dropWhile_nonws_head_length c rest hwf
          rw [ih _ g (by omega) (by omega)]

lemma ws_not_quote (c : Char) (h : isWS c = true) :
    ¬ (c = '\'' ∨ c = '"') := by
  intro hq
  rcases hq with hq | hq <;> (subst hq; simp [isWS] at h)

lemma splitFields_ws_cons (c : Char) (cs : PyStr) (hc : isWS c = true) :
    splitFields (c :: cs) = splitFields cs := by
  show splitFieldsF (c :: cs).length (c :: cs) = _
  simp only [List.length_cons, splitFieldsF]
  rw [if_neg (ws_not_quote c hc), if_pos hc]
  rfl

lemma splitFields_ws_run (w cs : PyStr) (hw : ∀ c ∈ w, isWS c = true) :
    splitFields (w ++ cs) = splitFields cs := by
  induction w with
  | nil => simp
  | cons c w' ih =>
    have hc : isWS c = true := hw c (List.mem_cons_self _ _)
    rw [List.cons_append, splitFields_ws_cons c (w' ++ cs) hc,
      ih (fun c' hc' => hw c' (List.mem_cons_of_mem _ hc'))]

lemma splitFields_token (t rest : PyStr) (ht : PlainTok t)
    (hrest : rest = [] ∨ ∃ c, rest.head? = some c ∧ isWS c = true) :
    splitFields (t ++ rest) = t :: splitFields rest := by
  obtain ⟨hne, hall⟩ := ht
  match t with
  | [] => exact absurd rfl hne
  | c :: t' =>
    have hc := hall c (List.mem_cons_self _ _)
    have htw : ∀ a ∈ c :: t', (fun x => !isWS x) a = true := by
      intro a ha
      simp [(hall a ha).1]
    have htake : ((c :: t') ++ rest).takeWhile (fun x => !isWS x) = c :: t' := by
      rw [(takedrop_append_all (c :: t') rest htw).1]
      rcases hrest with hrest | ⟨d, hd, hdws⟩
      · subst hrest; simp
      · match rest with
        | [] => simp at hd
        | e :: rest' =>
          simp only [List.head?_cons, Option.some.injEq] at hd
          subst hd
          simp [List.takeWhile, hdws]
    have hdrop : ((c :: t') ++ rest).dropWhile (fun x => !isWS x) = rest := by
      rw [(takedrop_append_all (c :: t') rest htw).2]
      rcases hrest with hrest | ⟨d, hd, hdws⟩
      · subst hrest; simp
      · match rest with
        | [] => simp at hd
        | e :: rest' =>
          simp only [List.head?_cons, Option.some.injEq] at hd
          subst hd
          simp [List.dropWhile, hdws]
    show splitFieldsF ((c :: t') ++ rest).length ((c :: t') ++ rest) = _
    have hlen : ((c :: t') ++ rest).length = (t' ++ rest).length + 1 := by
      simp
    rw [hlen]
    show splitFieldsF ((t' ++ rest).length + 1) (c :: (t' ++ rest)) = _
    simp only [splitFieldsF]
    rw [if_neg (by
      intro hq
      rcases hq with hq | hq
      · exact (hall c (List.mem_cons_self _ _)).2.1 hq
      · exact (hall c (List.mem_cons_self _ _)).2.2 hq)]
    rw [if_neg (by rw [hc.1]; decide)]
    have e1 : (c :: (t' ++ rest)).takeWhile (fun x => !isWS x) = c :: t' := by
      show ((c :: t') ++ rest).takeWhile (fun x => !isWS x) = c :: t'
      exact htake
    have e2 : (c :: (t' ++ rest)).dropWhile (fun x => !isWS x) = rest := by
      show ((c :: t') ++ rest).dropWhile (fun x => !isWS x) = rest
      exact hdrop
    rw [e1, e2]
    have hfl : (t' ++ rest).length ≥ rest.length := by
      simp
    rw [splitFieldsF_fuel ((t' ++ rest).length) rest rest.length (by omega)
      (le_refl _)]
    rfl

lemma mem_of_getLast?' (l : List α) (b : α) (h : l.getLast? = some b) :
    b ∈ l := by
  induction l with
  | nil => simp at h
  | cons a l ih =>
    cases l with
    | nil =>
      simp only [List.getLast?_singleton, Option.some.injEq] at h
      simp [h]
    | cons a' l' =>
      rw [List.getLast?_cons_cons] at h
      exact List.mem_cons_of_mem _ (ih h)

lemma stripQuotes_plain (t : PyStr) (ht : PlainTok t) : stripQuotes t = t := by
  obtain ⟨hne, hall⟩ := ht
  match t with
  | [] => rfl
  | c :: t' =>
    have hc := hall c (List.mem_cons_self _ _)
    unfold stripQuotes
    simp only [List.head?_cons]
    match hl : (c :: t').getLast? with
    | none => rfl
    | some b =>
      have hb : b ∈ c :: t' := mem_of_getLast?' _ b hl
      have hbf := hall b hb
      show (if (c = '\'' ∧ b = '\'') ∨ (c = '"' ∧ b = '"') then
        ((c :: t').drop 1).dropLast else c :: t') = c :: t'
      rw [if_neg (by
        rintro (⟨h1, -⟩ | ⟨h1, -⟩)
        · exact hc.2.1 h1
        · exact hc.2.2 h1)]

lemma map_stripQuotes_plain (ts : List PyStr) (ht : ∀ t ∈ ts, PlainTok t) :
    ts.map stripQuotes = ts := by
  induction ts with
  | nil => rfl
  | cons t ts' ih =>
    simp only [List.map_cons]
    rw [stripQuotes_plain t (ht t (List.mem_cons_self _ _)),
      ih (fun t' htm => ht t' (List.mem_cons_of_mem _ htm))]

lemma split_one_line_plain (ts : List PyStr) (line : PyStr)
    (h : splitFields line = ts) (ht : ∀ t ∈ ts, PlainTok t) :
    _split_one_line line = ts := by
  unfold _split_one_line
  rw [h]
  exact map_stripQuotes_plain ts ht

lemma contains_false_cons (sep c : Char) (A : PyStr)
    (h : (c :: A).contains sep = false) :
    ¬ c = sep ∧ A.contains sep = false := by
  constructor
  · intro he
    subst he
    simp [List.contains] at h
  · cases hb : A.contains sep
    · rfl
    · exfalso
      have : sep ∈ A := by simpa [List.contains] using hb
      have hcon : (c :: A).contains sep = true := by
        simpa [List.contains] using List.mem_cons_of_mem c this
      rw [hcon] at h
      exact Bool.noConfusion h

lemma pySplitOnAux_no_sep (sep : Char) (A : PyStr)
    (hA : A.contains sep = false) :
    ∀ cur, pySplitOnAux sep A cur = [cur.reverse ++ A] := by
  induction A with
  | nil => intro cur; simp [pySplitOnAux]
  | cons c A' ih =>
    intro cur
    obtain ⟨hcs, hA'⟩ := contains_false_cons sep c A' hA
    show (if c = sep then cur.reverse :: pySplitOnAux sep A' []
      else pySplitOnAux sep A' (c :: cur)) = _
    rw [if_neg hcs, ih hA' (c :: cur)]
    simp

lemma pySplitOnAux_sep (sep : Char) (B : PyStr) :
    ∀ (A : PyStr), A.contains sep = false →
    ∀ cur, pySplitOnAux sep (A ++ sep :: B) cur =
      (cur.reverse ++ A) :: pySplitOn sep B := by
  intro A
  induction A with
  | nil =>
    intro _ cur
    show (if sep = sep then cur.reverse :: pySplitOnAux sep B []
      else pySplitOnAux sep B (sep :: cur)) = _
    rw [if_pos rfl]
    simp [pySplitOn]
  | cons c A' ih =>
    intro hA cur
    obtain ⟨hcs, hA'⟩ := contains_false_cons sep c A' hA
    show (if c = sep then cur.reverse :: pySplitOnAux sep (A' ++ sep :: B) []
      else pySplitOnAux sep (A' ++ sep :: B) (c :: cur)) = _
    rw [if_neg hcs, ih hA' (c :: cur)]
    simp

lemma pySplitOn_pair (sep : Char) (A B : PyStr)
    (hA : A.contains sep = false) (hB : B.contains sep = false) :
    pySplitOn sep (A ++ sep :: B) = [A, B] := by
  unfold pySplitOn
  rw [pySplitOnAux_sep sep B A hA []]
  unfold pySplitOn
  rw [pySplitOnAux_no_sep sep B hB []]
  simp

lemma pyStrip_core (A w : PyStr)
    (hhead : ∀ hd, A.head? = some hd → isWS hd = false)
    (hlast : ∀ lst, A.getLast? = some lst → isWS lst = false)
    (hw : ∀ c ∈ w, isWS c = true) :
    pyStrip (A ++ w) = A := by
  unfold pyStrip
  match A with
  | [] =>
    simp only [List.nil_append]
    have h1 : w.dropWhile isWS = [] := by
      rw [List.dropWhile_eq_nil_iff]
      exact hw
    rw [h1]
    rfl
  | a :: A' =>
    have ha : isWS a = false := hhead a rfl
    have hd1 : ((a :: A') ++ w).dropWhile isWS = (a :: A') ++ w := by
      show ((a :: (A' ++ w)).dropWhile isWS) = _
      simp [List.dropWhile, ha]
    rw [hd1, List.reverse_append]
    rw [(takedrop_append_all w.reverse (a :: A').reverse (by
      intro c hc
      exact hw c (List.mem_reverse.mp hc))).2]
    have h2 : (a :: A').reverse.dropWhile isWS = (a :: A').reverse := by
      match hrev : (a :: A').reverse with
      | [] =>
        exfalso
        have : (a :: A').reverse.length = 0 := by rw [hrev]; rfl
        simp at this
      | b :: rb =>
        have hb : (a :: A').getLast? = some b := by
          rw [← List.head?_reverse, hrev]
          rfl
        have hbw := hlast b hb
        simp [List.dropWhile, hbw]
    rw [h2, List.reverse_reverse]

lemma joinNl_cons_cons (l l' : PyStr) (ls : List PyStr) :
    joinNl (l :: l' :: ls) = l ++ '\n' :: joinNl (l' :: ls) := by
  unfold joinNl
  rw [List.intersperse_cons_cons]
  simp

lemma pySplitOn_joinNl : ∀ ls : List PyStr, ls ≠ [] →
    (∀ l ∈ ls, l.contains '\n' = false) →
    pySplitOn '\n' (joinNl ls) = ls := by
  intro ls
  induction ls with
  | nil => intro h _; exact absurd rfl h
  | cons l ls' ih =>
    intro _ hnl
    match ls' with
    | [] =>
      have hj : joinNl [l] = l := by
        unfold joinNl
        simp
      rw [hj]
      unfold pySplitOn
      rw [pySplitOnAux_no_sep '\n' l (hnl l (List.mem_cons_self _ _))]
      simp
    | l' :: ls'' =>
      rw [joinNl_cons_cons]
      unfold pySplitOn
      rw [pySplitOnAux_sep '\n' (joinNl (l' :: ls'')) l
        (hnl l (List.mem_cons_self _ _)) []]
      rw [ih (by simp) (fun x hx => hnl x (List.mem_cons_of_mem _ hx))]
      simp

lemma splitlines_joinNl (ls : List PyStr)
    (h : ∀ l ∈ ls, l.contains '\n' = false) :
    splitlines (joinNl (ls ++ [[]])) = ls := by
  have hsplit : pySplitOn '\n' (joinNl (ls ++ [[]])) = ls ++ [[]] := by
    refine pySplitOn_joinNl (ls ++ [[]]) (by simp) ?_
    intro l hl
    rcases List.mem_append.mp hl with hl | hl
    · exact h l hl
    · simp only [List.mem_singleton] at hl
      subst hl
      rfl
  unfold splitlines
  rw [hsplit]
  have hlast : (ls ++ [[]]).getLast? = some [] := by
    rw [List.getLast?_concat]
  rw [if_pos hlast, List.dropLast_concat]

lemma toSingle_pass (isLooped : Bool) :
    ∀ ls acc : List PyStr,
    (∀ l ∈ ls, ¬ l.head? = some ';' ∧ (isLooped = false → l.head? = some '_')) →
    toSingleF isLooped ls.length acc ls = some (acc.reverse ++ ls) := by
  intro ls
  induction ls with
  | nil => intro acc _; simp [toSingleF]
  | cons l ls' ih =>
    intro acc h
    have hl := h l (List.mem_cons_self _ _)
    show toSingleF isLooped (ls'.length + 1) acc (l :: ls') = _
    simp only [toSingleF]
    rw [if_neg hl.1]
    rw [if_neg (by
      rintro ⟨hlf, hne⟩
      exact hne (hl.2 hlf))]
    rw [ih (l :: acc) (fun x hx => h x (List.mem_cons_of_mem _ hx))]
    simp

lemma to_single_pass (lines : List PyStr) (isLooped : Bool)
    (h : ∀ l ∈ lines, ¬ l.head? = some ';' ∧
      (isLooped = false → l.head? = some '_')) :
    _to_single lines isLooped = some lines := by
  unfold _to_single
  rw [toSingle_pass isLooped lines [] h]
  simp

lemma dict_entries_lookup [DecidableEq κ] (d : List (κ × α))
    (hnd : (d.map Prod.fst).Nodup) :
    ∀ kv ∈ d, dictLookup d kv.1 = some kv.2 := by
  induction d with
  | nil => intro kv hkv; simp at hkv
  | cons kw rest ih =>
    obtain ⟨k, w⟩ := kw
    intro kv hkv
    rcases List.mem_cons.mp hkv with rfl | hmem
    · simp [dictLookup]
    · have hk : ¬ k = kv.1 := by
        intro he
        have : kv.1 ∈ rest.map Prod.fst := List.mem_map_of_mem _ hmem
        rw [← he] at this
        exact (List.nodup_cons.mp (by simpa using hnd)).1 this
      simp only [dictLookup, if_neg hk]
      exact ih (List.nodup_cons.mp (by simpa using hnd)).2 kv hmem

lemma dictLookup_none_of_not_mem [DecidableEq κ] (d : List (κ × α)) (key : κ)
    (h : ¬ key ∈ d.map Prod.fst) : dictLookup d key = none := by
  induction d with
  | nil => rfl
  | cons kw rest ih =>
    obtain ⟨k, w⟩ := kw
    have hk : ¬ k = key := by
      intro he
      exact h (by simp [he])
    simp only [dictLookup, if_neg hk]
    exact ih (fun hmem => h (by simp [hmem]))

lemma dictLookup_map_values (g : List PyStr → CIFColumn)
    (d : List (PyStr × List PyStr)) (key : PyStr) :
    dictLookup (d.map (fun kc => (kc.1, g kc.2))) key =
      (dictLookup d key).map g := by
  induction d with
  | nil => rfl
  | cons kw rest ih =>
    obtain ⟨k, w⟩ := kw
    by_cases hk : k = key
    · simp [dictLookup, hk]
    · simp [dictLookup, hk, ih]

lemma eqb_true_of (a b : CIFCategory)
    (hk : a.columns.map Prod.fst = b.columns.map Prod.fst)
    (hl : ∀ key, dictLookup a.columns key = dictLookup b.columns key) :
    CIFCategory.eqb a b = true := by
  unfold CIFCategory.eqb sameKeySet
  rw [Bool.and_eq_true, Bool.and_eq_true]
  refine ⟨⟨?_, ?_⟩, ?_⟩
  · rw [List.all_eq_true]
    intro kv hkv
    have : kv.1 ∈ b.columns.map Prod.fst := by
      rw [← hk]
      exact List.mem_map_of_mem _ hkv
    obtain ⟨v, hv⟩ := dictLookup_isSome_of_mem b.columns kv.1 this
    simp [hv]
  · rw [List.all_eq_true]
    intro kv hkv
    have : kv.1 ∈ a.columns.map Prod.fst := by
      rw [hk]
      exact List.mem_map_of_mem _ hkv
    obtain ⟨v, hv⟩ := dictLookup_isSome_of_mem a.columns kv.1 this
    simp [hv]
  · rw [List.all_eq_true]
    intro kv hkv
    have hmem : kv.1 ∈ a.columns.map Prod.fst := List.mem_map_of_mem _ hkv
    obtain ⟨v, hv⟩ := dictLookup_isSome_of_mem a.columns kv.1 hmem
    rw [hv, ← hl kv.1, hv]
    simp

/-- A programmatically built string column: `CIFColumn(values)`, all values
plain strings, no mask. -/
def colOf (vals : List PyStr) : CIFColumn := ⟨⟨vals.map CIFValue.str⟩, none⟩

lemma colOf_len (vals : List PyStr) : (colOf vals).len = vals.length := by
  simp [colOf, CIFColumn.len]

lemma checkRows_all_n (cols : List (PyStr × CIFColumn)) (n : Nat)
    (h : ∀ kc ∈ cols, CIFColumn.len kc.2 = n) (hne : cols ≠ []) :
    checkRowsAux none cols = (some n, none) := by
  match cols with
  | [] => exact absurd rfl hne
  | (k, c) :: rest =>
    show checkRowsAux (some c.len) rest = _
    have hc : CIFColumn.len c = n := h (k, c) (List.mem_cons_self _ _)
    rw [hc]
    exact checkRows_uniform n rest (fun kc hkc => h kc (List.mem_cons_of_mem _ hkc))

lemma itemToQuoted_colOf_single (s : PyStr) (hs : alnumStr s) :
    itemToQuoted (colOf [s]) = .ok s := by
  show Except.ok (_multiline (_quote s)) = _
  rw [quote_multiline_alnum_id s hs]

lemma mapM_ok_map {f : α → Except PyError β} {g : α → β} (l : List α)
    (h : ∀ a ∈ l, f a = .ok (g a)) : l.mapM f = .ok (l.map g) := by
  induction l with
  | nil => rfl
  | cons a l' ih =>
    rw [List.mapM_cons, h a (List.mem_cons_self _ _),
      ih (fun a' ha' => h a' (List.mem_cons_of_mem _ ha'))]
    rfl

lemma as_array_str_colOf (vals : List PyStr) :
    (colOf vals).as_array_str = .ok vals := by
  show Except.ok ((vals.map CIFValue.str).map CIFValue.toPyStr) = _
  rw [tostr_strs]

lemma map_qml_id (vals : List PyStr) (h : ∀ v ∈ vals, alnumStr v) :
    vals.map (fun e => _multiline (_quote e)) = vals := by
  induction vals with
  | nil => rfl
  | cons v vs ih =>
    simp only [List.map_cons]
    rw [quote_multiline_alnum_id v (h v (List.mem_cons_self _ _)),
      ih (fun v' hv' => h v' (List.mem_cons_of_mem _ hv'))]

lemma foldl_dictInsert_fresh [DecidableEq κ] (ps : List (κ × α)) :
    ∀ d, (∀ p ∈ ps, dictLookup d p.1 = none) → (ps.map Prod.fst).Nodup →
    ps.foldl (fun d p => dictInsert d p.1 p.2) d = d ++ ps := by
  induction ps with
  | nil => intro d _ _; simp
  | cons p ps' ih =>
    intro d hfresh hnd
    obtain ⟨k, v⟩ := p
    rw [List.foldl_cons, dictInsert_absent d k v (hfresh (k, v) (List.mem_cons_self _ _))]
    rw [ih (d ++ [(k, v)]) ?_ (by simpa using (List.nodup_cons.mp (by simpa using hnd)).2)]
    · simp
    · intro p' hp'
      rw [dictLookup_append_left_none d _ p'.1
        (hfresh p' (List.mem_cons_of_mem _ hp'))]
      have hne : ¬ k = p'.1 := by
        intro he
        have : p'.1 ∈ ps'.map Prod.fst := List.mem_map_of_mem _ hp'
        rw [← he] at this
        exact (List.nodup_cons.mp (by simpa using hnd)).1 this
      simp [dictLookup, hne]

lemma key_plainTok (nm k : PyStr) (hnm : alnumStr nm) (hk : alnumStr k) :
    PlainTok ('_' :: (nm ++ '.' :: k)) := by
  refine ⟨by simp, ?_⟩
  intro c hc
  rcases List.mem_cons.mp hc with rfl | hc
  · exact ⟨rfl, by decide, by decide⟩
  · rcases List.mem_append.mp hc with hc | hc
    · have := alnum_char_facts c (hnm.2 c hc)
      exact ⟨this.1, this.2.1, this.2.2.1⟩
    · rcases List.mem_cons.mp hc with rfl | hc
      · exact ⟨rfl, by decide, by decide⟩
      · have := alnum_char_facts c (hk.2 c hc)
        exact ⟨this.1, this.2.1, this.2.2.1⟩

lemma contains_append_eq (c : Char) (A B : PyStr) :
    (A ++ B).contains c = (A.contains c || B.contains c) := by
  simp only [List.contains, List.elem_eq_mem, List.mem_append]
  by_cases h1 : c ∈ A <;> by_cases h2 : c ∈ B <;> simp [h1, h2]

lemma plain_no_nl (t : PyStr) (h : PlainTok t) : t.contains '\n' = false := by
  by_contra hcon
  have hmem : '\n' ∈ t := by
    cases hb : t.contains '\n'
    · exact absurd hb hcon
    · simpa [List.contains] using hb
  have := (h.2 '\n' hmem).1
  simp [isWS] at this

lemma ljust_no_nl (t : PyStr) (w : Nat) (h : t.contains '\n' = false) :
    (ljust t w).contains '\n' = false := by
  unfold ljust
  rw [contains_append_eq, h]
  have : (List.replicate (w - t.length) ' ').contains '\n' = false := by
    by_contra hcon
    have hmem : '\n' ∈ List.replicate (w - t.length) ' ' := by
      cases hb : (List.replicate (w - t.length) ' ').contains '\n'
      · exact absurd hb hcon
      · simpa [List.contains] using hb
    have := List.eq_of_mem_replicate hmem
    simp at this
  rw [this]
  rfl

/-- The text of one looped value line with the (all-whitespace) padding of
the last column removed: what `str.strip()` leaves of the line. -/
def joinPadLast : List (PyStr × Nat) → PyStr
  | [] => []
  | [(q, _)] => q
  | (q, w) :: p :: rest => ljust q w ++ joinPadLast (p :: rest)

lemma joinPad_decompose : ∀ ps : List (PyStr × Nat), ps ≠ [] →
    ∃ wtr, joinEmpty (ps.map (fun p => ljust p.1 p.2)) = joinPadLast ps ++ wtr
      ∧ ∀ c ∈ wtr, isWS c = true := by
  intro ps
  induction ps with
  | nil => intro h; exact absurd rfl h
  | cons p ps' ih =>
    intro _
    obtain ⟨q, w⟩ := p
    match ps' with
    | [] =>
      refine ⟨List.replicate (w - q.length) ' ', ?_, ?_⟩
      · show ljust q w ++ [] = q ++ _
        unfold ljust
        simp
      · intro c hc
        rw [List.eq_of_mem_replicate hc]
        rfl
    | p' :: rest =>
      obtain ⟨wtr, hw, hws⟩ := ih (by simp)
      refine ⟨wtr, ?_, hws⟩
      show ljust q w ++ joinEmpty ((p' :: rest).map (fun p => ljust p.1 p.2)) = _
      rw [hw]
      show _ = (ljust q w ++ joinPadLast (p' :: rest)) ++ wtr
      rw [List.append_assoc]

lemma joinPadLast_ne_nil (ps : List (PyStr × Nat)) (hne : ps ≠ [])
    (h : ∀ p ∈ ps, p.1 ≠ []) : joinPadLast ps ≠ [] := by
  match ps with
  | [(q, w)] =>
    show q ≠ []
    exact h (q, w) (List.mem_cons_self _ _)
  | (q, w) :: p' :: rest =>
    show ljust q w ++ joinPadLast (p' :: rest) ≠ []
    have hq : q ≠ [] := h (q, w) (List.mem_cons_self _ _)
    intro hcon
    rw [List.append_eq_nil] at hcon
    have : q.length = 0 := by
      have : (ljust q w).length = 0 := by rw [hcon.1]; rfl
      unfold ljust at this
      rw [List.length_append] at this
      omega
    exact hq (List.length_eq_zero.mp this)

lemma joinPadLast_head? : ∀ ps : List (PyStr × Nat), ps ≠ [] →
    (∀ p ∈ ps, p.1 ≠ []) →
    ∃ p₀ rest, ps = p₀ :: rest ∧ (joinPadLast ps).head? = p₀.1.head? := by
  intro ps
  match ps with
  | [] => intro h _; exact absurd rfl h
  | [(q, w)] =>
    intro _ _
    exact ⟨(q, w), [], rfl, rfl⟩
  | (q, w) :: p' :: rest =>
    intro _ hp
    refine ⟨(q, w), p' :: rest, rfl, ?_⟩
    show (ljust q w ++ joinPadLast (p' :: rest)).head? = q.head?
    have hq : q ≠ [] := hp (q, w) (List.mem_cons_self _ _)
    match q with
    | [] => exact absurd rfl hq
    | c :: q' => rfl

lemma joinPadLast_getLast? : ∀ ps : List (PyStr × Nat), ps ≠ [] →
    (∀ p ∈ ps, p.1 ≠ []) →
    ∃ pl, pl ∈ ps ∧ (joinPadLast ps).getLast? = pl.1.getLast? := by
  intro ps
  match ps with
  | [] => intro h _; exact absurd rfl h
  | [(q, w)] =>
    intro _ _
    exact ⟨(q, w), List.mem_cons_self _ _, rfl⟩
  | (q, w) :: p' :: rest =>
    intro _ hp
    obtain ⟨pl, hmem, hlast⟩ := joinPadLast_getLast? (p' :: rest) (by simp)
      (fun p hmem => hp p (List.mem_cons_of_mem _ hmem))
    refine ⟨pl, List.mem_cons_of_mem _ hmem, ?_⟩
    show (ljust q w ++ joinPadLast (p' :: rest)).getLast? = _
    rw [List.getLast?_append_of_ne_nil]
    · exact hlast
    · exact joinPadLast_ne_nil (p' :: rest) (by simp)
        (fun p hmem => hp p (List.mem_cons_of_mem _ hmem))

lemma splitFields_joinPadLast : ∀ ps : List (PyStr × Nat), ps ≠ [] →
    (∀ p ∈ ps, PlainTok p.1 ∧ p.1.length < p.2) →
    splitFields (joinPadLast ps) = ps.map Prod.fst := by
  intro ps
  match ps with
  | [] => intro h _; exact absurd rfl h
  | [(q, w)] =>
    intro _ hp
    show splitFields q = [q]
    have := splitFields_token q [] (hp (q, w) (List.mem_cons_self _ _)).1
      (Or.inl rfl)
    simpa using this
  | (q, w) :: p' :: rest =>
    intro _ hp
    have ihres := splitFields_joinPadLast (p' :: rest) (by simp)
      (fun p hmem => hp p (List.mem_cons_of_mem _ hmem))
    have hq := hp (q, w) (List.mem_cons_self _ _)
    show splitFields (ljust q w ++ joinPadLast (p' :: rest)) = q :: _
    have hsplit : ljust q w ++ joinPadLast (p' :: rest) =
        q ++ (List.replicate (w - q.length) ' ' ++ joinPadLast (p' :: rest)) := by
      unfold ljust
      rw [List.append_assoc]
    rw [hsplit]
    have hpadne : w - q.length > 0 := by
      have h2 : q.length < w := hq.2
      omega
    have hpadhead : ∃ c, (List.replicate (w - q.length) ' ' ++
        joinPadLast (p' :: rest)).head? = some c ∧ isWS c = true := by
      match hrep : w - q.length with
      | 0 => omega
      | m + 1 =>
        refine ⟨' ', ?_, rfl⟩
        rw [List.replicate_succ]
        rfl
    rw [splitFields_token q _ hq.1 (Or.inr hpadhead)]
    rw [splitFields_ws_run _ _ (by
      intro c hc
      rw [List.eq_of_mem_replicate hc]
      rfl)]
    rw [ihres]

lemma maskCodeOf_alnum (v : PyStr) (hv : alnumStr v) :
    maskCodeOf v = MaskValue.present := by
  unfold maskCodeOf
  rw [if_neg, if_neg]
  · intro he
    have : '?' ∈ v := by rw [he]; exact List.mem_cons_self _ _
    have := hv.2 '?' this
    simp at this
  · intro he
    have : '.' ∈ v := by rw [he]; exact List.mem_cons_self _ _
    have := hv.2 '.' this
    simp at this

lemma mkColumnFromStr_alnum (v : PyStr) (hv : alnumStr v) :
    mkColumnFromStr v = colOf [v] := by
  unfold mkColumnFromStr mkCIFColumnNoMask colOf
  have h1 : ([v].map CIFValue.str) = [CIFValue.str v] := rfl
  rw [← h1]
  have h2 : inferMask ⟨[v].map CIFValue.str⟩ = none := by
    rw [inferMask_strs]
    rw [if_pos]
    show ([maskCodeOf v]).all _ = true
    simp [maskCodeOf_alnum v hv]
  rw [h2]

lemma mkColumnFromStrs_alnum (vals : List PyStr) (hne : vals ≠ [])
    (hv : ∀ v ∈ vals, alnumStr v) :
    mkColumnFromStrs vals = .ok (colOf vals) := by
  unfold mkColumnFromStrs mkCIFDataStrs
  rw [if_neg (by simp [List.isEmpty_iff, hne])]
  show Except.ok (mkCIFColumnNoMask ⟨vals.map CIFValue.str⟩) = _
  unfold mkCIFColumnNoMask colOf
  have h2 : inferMask ⟨vals.map CIFValue.str⟩ = none := by
    rw [inferMask_strs]
    rw [if_pos]
    rw [List.all_eq_true]
    intro mv hmv
    obtain ⟨v, hvm, hcode⟩ := List.mem_map.mp hmv
    rw [← hcode, maskCodeOf_alnum v (hv v hvm)]
    simp
  rw [h2]

lemma is_loop_start_false (l : PyStr) (c : Char) (h : l.head? = some c)
    (hc : ¬ c = 'l') : _is_loop_start l = false := by
  match l with
  | [] => simp at h
  | a :: rest =>
    have ha : a = c := by
      simpa using h
    subst ha
    unfold _is_loop_start
    have hne : ¬ (a :: rest.take 4 = strL "loop_") := by
      intro he
      exact hc ((List.cons.injEq _ _ _ _).mp he).1
    have hred : (a :: rest).take 5 = a :: rest.take 4 := rfl
    simp [hred, hne]

lemma is_empty_false (l : PyStr) (c : Char) (h : l.head? = some c)
    (hws : isWS c = false) (hch : ¬ c = '#') : _is_empty l = false := by
  match l with
  | [] => simp at h
  | a :: rest =>
    have ha : a = c := by simpa using h
    subst ha
    unfold _is_empty
    have h1 : (pyStrip (a :: rest)).isEmpty = false := by
      cases hb : (pyStrip (a :: rest)).isEmpty
      · rfl
      · exfalso
        have hnil : pyStrip (a :: rest) = [] := by
          cases hpp : pyStrip (a :: rest)
          · rfl
          · rw [hpp] at hb; simp at hb
        unfold pyStrip at hnil
        have hd1 : (a :: rest).dropWhile isWS = a :: rest := by
          simp [List.dropWhile, hws]
        rw [hd1] at hnil
        have : (a :: rest).reverse.dropWhile isWS = [] := by
          have := congrArg List.reverse hnil
          simpa using this
        rw [List.dropWhile_eq_nil_iff] at this
        have := this a (by simp)
        rw [this] at hws
        exact Bool.noConfusion hws
    rw [h1]
    simp [hch]

lemma pyStrip_id (A : PyStr)
    (hhead : ∀ hd, A.head? = some hd → isWS hd = false)
    (hlast : ∀ lst, A.getLast? = some lst → isWS lst = false) :
    pyStrip A = A := by
  have := pyStrip_core A [] hhead hlast (by intro c hc; simp at hc)
  simpa using this

lemma getLast?_key (nm k : PyStr) (hk : k ≠ []) :
    ('_' :: (nm ++ '.' :: k)).getLast? = k.getLast? := by
  have h1 : '_' :: (nm ++ '.' :: k) = (('_' :: nm) ++ ['.']) ++ k := by simp
  rw [h1, List.getLast?_append_of_ne_nil]
  exact hk

lemma parse_category_name_key (nm s : PyStr) (hnm : alnumStr nm) :
    _parse_category_name ('_' :: (nm ++ '.' :: s)) = some nm := by
  show (if ('_' : Char) ≠ '_' then none
    else if ('_' :: (nm ++ '.' :: s)).contains '.' then
      some ((('_' :: (nm ++ '.' :: s)).drop 1).takeWhile (fun x => x ≠ '.'))
    else some ((('_' :: (nm ++ '.' :: s)).drop 1).dropLast)) = some nm
  rw [if_neg (by simp)]
  rw [if_pos]
  · have hd : ('_' :: (nm ++ '.' :: s)).drop 1 = nm ++ '.' :: s := rfl
    rw [hd]
    have ht := (takedrop_append_all (p := fun x => decide (x ≠ '.')) nm ('.' :: s)
      (by
        intro a ha
        have := (alnum_char_facts a (hnm.2 a ha)).2.2.2.2.1
        simp [this])).1
    rw [ht]
    have h2 : ('.' :: s).takeWhile (fun x => decide (x ≠ '.')) = [] := by
      simp [List.takeWhile]
    rw [h2]
    simp
  · show ('_' :: (nm ++ '.' :: s)).contains '.' = true
    have : '.' ∈ '_' :: (nm ++ '.' :: s) := by simp
    simpa [List.contains] using this

lemma pySplitOn_key (nm k : PyStr) (hnm : alnumStr nm) (hk : alnumStr k) :
    pySplitOn '.' ('_' :: (nm ++ '.' :: k)) = ['_' :: nm, k] := by
  have h1 : '_' :: (nm ++ '.' :: k) = ('_' :: nm) ++ '.' :: k := by simp
  rw [h1]
  apply pySplitOn_pair
  · show (('_' : Char) :: nm).contains '.' = false
    have hn : nm.contains '.' = false :=
      alnum_no_char nm hnm '.' (by decide)
    have : ('_' : Char) :: nm = ['_'] ++ nm := rfl
    rw [this, contains_append_eq, hn]
    decide
  · exact alnum_no_char k hk '.' (by decide)

lemma loopKeyOf_key (nm k : PyStr) (hnm : alnumStr nm) (hk : alnumStr k) :
    loopKeyOf ('_' :: (nm ++ '.' :: k)) = .ok k := by
  unfold loopKeyOf
  rw [pySplitOn_key nm k hnm hk]
  rfl

lemma zipWith_map_same (f : γ → δ → ε) (g : α → γ) (h : α → δ) (l : List α) :
    List.zipWith f (l.map g) (l.map h) = l.map (fun a => f (g a) (h a)) := by
  induction l with
  | nil => rfl
  | cons a l ih => simp [ih]

lemma foldl_max_init : ∀ (l : List Nat) (a : Nat), a ≤ l.foldl max a := by
  intro l
  induction l with
  | nil => intro a; exact Nat.le_refl a
  | cons x l ih =>
    intro a
    exact Nat.le_trans (Nat.le_max_left a x) (ih (max a x))

lemma le_foldl_max : ∀ (l : List Nat) (a : Nat), ∀ x ∈ l, x ≤ l.foldl max a := by
  intro l
  induction l with
  | nil => intro a x hx; simp at hx
  | cons y l ih =>
    intro a x hx
    rcases List.mem_cons.mp hx with rfl | hmem
    · exact Nat.le_trans (Nat.le_max_right a x) (foldl_max_init l (max a x))
    · exact ih (max a y) x hmem

lemma map_getD_range (l : List α) (d : α) :
    (List.range l.length).map (fun i => l.getD i d) = l := by
  induction l with
  | nil => rfl
  | cons a l ih =>
    rw [List.length_cons, List.range_succ_eq_map, List.map_cons, List.map_map]
    have h1 : (a :: l).getD 0 d = a := rfl
    rw [h1]
    have h2 : ((fun i => (a :: l).getD i d) ∘ Nat.succ) = fun i => l.getD i d := by
      funext i
      rfl
    rw [h2, ih]

lemma dict_ext_of_keys [DecidableEq κ] :
    ∀ (d : List (κ × α)) (keys : List κ) (V : κ → α),
    d.map Prod.fst = keys → keys.Nodup →
    (∀ key ∈ keys, dictLookup d key = some (V key)) →
    d = keys.map (fun k => (k, V k)) := by
  intro d
  induction d with
  | nil =>
    intro keys V hk _ _
    rw [← hk]
    rfl
  | cons kv d ih =>
    intro keys V hk hnd hl
    obtain ⟨k, v⟩ := kv
    match keys with
    | [] => simp at hk
    | k0 :: keys' =>
      have hk0 : k = k0 := by
        have := (List.cons.injEq _ _ _ _).mp hk
        exact this.1
      subst hk0
      have htl : d.map Prod.fst = keys' := by
        have := (List.cons.injEq _ _ _ _).mp hk
        exact this.2
      have hv : v = V k := by
        have := hl k (List.mem_cons_self _ _)
        simp [dictLookup] at this
        exact this
      subst hv
      rw [List.map_cons]
      congr 1
      apply ih keys' V htl (List.nodup_cons.mp hnd).2
      intro key hkey
      have hne : ¬ k = key := by
        intro he
        exact (List.nodup_cons.mp hnd).1 (he ▸ hkey)
      have := hl key (List.mem_cons_of_mem _ hkey)
      rw [show dictLookup ((k, V k) :: d) key = dictLookup d key by
        simp [dictLookup, hne]] at this
      exact this

lemma forall2_map_map {R : β → γ → Prop} (l : List α) (f : α → β) (g : α → γ)
    (h : ∀ a ∈ l, R (f a) (g a)) : List.Forall₂ R (l.map f) (l.map g) := by
  induction l with
  | nil => exact List.Forall₂.nil
  | cons a l ih =>
    exact List.Forall₂.cons (h a (List.mem_cons_self _ _))
      (ih (fun a ha => h a (List.mem_cons_of_mem _ ha)))

lemma dsingle_run :
    ∀ (lines : List PyStr) (kvs : List (PyStr × PyStr)),
    List.Forall₂ (fun ℓ (kv : PyStr × PyStr) =>
      ∃ p0, _split_one_line ℓ = [p0, kv.2] ∧
        (pySplitOn '.' p0).get? 1 = some kv.1) lines kvs →
    ∀ d, deserializeSingleAux lines d =
      .ok (kvs.foldl (fun d kv => dictInsert d kv.1 (mkColumnFromStr kv.2)) d) := by
  intro lines kvs hF
  induction hF with
  | nil => intro d; rfl
  | cons hhead htail ih =>
    intro d
    obtain ⟨p0, hsplit, hdot⟩ := hhead
    rename_i line kv lines' kvs'
    have h0 : (_split_one_line line).get? 0 = some p0 := by rw [hsplit]; rfl
    have h1 : (_split_one_line line).get? 1 = some kv.2 := by rw [hsplit]; rfl
    show deserializeSingleAux (line :: lines') d = _
    simp only [deserializeSingleAux, h0, h1, hdot]
    exact ih (dictInsert d kv.1 (mkColumnFromStr kv.2))

lemma filter_all_true {p : α → Bool} :
    ∀ (l : List α), (∀ a ∈ l, p a = true) → l.filter p = l := by
  intro l
  induction l with
  | nil => intro _; rfl
  | cons a l ih =>
    intro h
    rw [List.filter_cons, if_pos (h a (List.mem_cons_self _ _)),
      ih (fun a ha => h a (List.mem_cons_of_mem _ ha))]

lemma ljust_head (v : PyStr) (w : Nat) (hv : v ≠ []) :
    (ljust v w).head? = v.head? := by
  match v with
  | [] => exact absurd rfl hv
  | c :: v' => rfl

lemma joinEmpty_head (p : PyStr) (ps : List PyStr) (hp : p ≠ []) :
    (joinEmpty (p :: ps)).head? = p.head? := by
  match p with
  | [] => exact absurd rfl hp
  | c :: p' => rfl

lemma rrCol_rows (k j : Nat) (hj : j < k) (d : α) :
    ∀ rows : List (List α), (∀ row ∈ rows, row.length = k) →
      rrCol k j rows.flatten 0 = rows.map (fun row => row.getD j d) := by
  intro rows
  induction rows with
  | nil => intro _; rfl
  | cons row rows ih =>
    intro h
    have hrow : row.length = k := h row (List.mem_cons_self _ _)
    rw [List.flatten_cons, rrCol_append k j row rows.flatten 0 (by omega)]
    rw [show (0 + row.length) % k = 0 by rw [hrow]; simp]
    rw [ih (fun r hr => h r (List.mem_cons_of_mem _ hr))]
    rw [rrCol_short k j row 0 (by omega)]
    rw [if_pos ⟨Nat.zero_le j, by omega⟩]
    have hjr : j - 0 = j := rfl
    rw [hjr]
    have hget : row.get? j = some (row.getD j d) := by
      have hlt : j < row.length := by omega
      rw [List.getD_eq_getElem?_getD]
      rw [List.get?_eq_getElem?]
      rw [List.getElem?_eq_getElem hlt]
      rfl
    rw [hget]
    rfl

lemma line_single_split (key s : PyStr) (req : Nat)
    (hkey : PlainTok key) (hs : alnumStr s) (hreq : key.length < req) :
    _split_one_line (ljust key req ++ s) = [key, s] := by
  have hline : ljust key req ++ s =
      key ++ (List.replicate (req - key.length) ' ' ++ s) := by
    unfold ljust
    rw [List.append_assoc]
  have hpadhead : ∃ c, (List.replicate (req - key.length) ' ' ++ s).head? =
      some c ∧ isWS c = true := by
    match hrep : req - key.length with
    | 0 => omega
    | m + 1 =>
      refine ⟨' ', ?_, rfl⟩
      rw [List.replicate_succ]
      rfl
  have h1 : splitFields (ljust key req ++ s) = key :: splitFields
      (List.replicate (req - key.length) ' ' ++ s) := by
    rw [hline]
    exact splitFields_token key _ hkey (Or.inr hpadhead)
  have h2 : splitFields (List.replicate (req - key.length) ' ' ++ s) =
      splitFields s := by
    apply splitFields_ws_run
    intro c hc
    rw [List.eq_of_mem_replicate hc]
    rfl
  have h3 : splitFields s = [s] := by
    have := splitFields_token s [] (alnum_plainTok s hs) (Or.inl rfl)
    simpa using this
  apply split_one_line_plain
  · rw [h1, h2, h3]
  · intro t htm
    rcases List.mem_cons.mp htm with rfl | htm
    · exact hkey
    · rcases List.mem_cons.mp htm with rfl | htm
      · exact alnum_plainTok t hs
      · simp at htm

lemma serialize_run_single (nm : PyStr) (cols : List (PyStr × CIFColumn))
    (hne : cols ≠ []) (hck : checkRowsAux none cols = (some 1, none))
    (lines : List PyStr) (hs : serializeSingle nm cols = .ok lines) :
    CIFCategory.serialize ⟨some nm, none, cols⟩ =
      (.ok (joinNl (lines ++ [[]])), ⟨some nm, some 1, cols⟩) := by
  have hE : cols.isEmpty = false := by
    cases cols with
    | nil => exact absurd rfl hne
    | cons a l => rfl
  unfold CIFCategory.serialize
  dsimp only
  rw [hE]
  rw [if_neg (by simp)]
  rw [hck]
  show (match serializeSingle nm cols with
    | .error e => (Except.error e, (⟨some nm, some 1, cols⟩ : CIFCategory))
    | .ok ls => (.ok (joinNl (ls ++ [[]])), (⟨some nm, some 1, cols⟩ : CIFCategory)))
    = _
  rw [hs]

lemma serialize_run_looped (nm : PyStr) (cols : List (PyStr × CIFColumn))
    (n : Nat) (hne : cols ≠ []) (hck : checkRowsAux none cols = (some n, none))
    (hn0 : ¬ n = 0) (hn1 : ¬ n = 1)
    (lines : List PyStr) (hs : serializeLooped nm cols n = .ok lines) :
    CIFCategory.serialize ⟨some nm, none, cols⟩ =
      (.ok (joinNl (lines ++ [[]])), ⟨some nm, some n, cols⟩) := by
  have hE : cols.isEmpty = false := by
    cases cols with
    | nil => exact absurd rfl hne
    | cons a l => rfl
  unfold CIFCategory.serialize
  dsimp only
  rw [hE]
  rw [if_neg (by simp)]
  rw [hck]
  show (if n = 0 then
      (.error (.valueError (strL "At least one row is required")),
        (⟨some nm, some n, cols⟩ : CIFCategory))
    else if n = 1 then
      match serializeSingle nm cols with
      | .error e => (Except.error e, (⟨some nm, some n, cols⟩ : CIFCategory))
      | .ok ls => (.ok (joinNl (ls ++ [[]])), (⟨some nm, some n, cols⟩ : CIFCategory))
    else
      match serializeLooped nm cols n with
      | .error e => (Except.error e, (⟨some nm, some n, cols⟩ : CIFCategory))
      | .ok ls => (.ok (joinNl (ls ++ [[]])), (⟨some nm, some n, cols⟩ : CIFCategory)))
    = _
  rw [if_neg hn0, if_neg hn1]
  rw [hs]

lemma serializeSingle_run (nm : PyStr) (items : List (PyStr × List PyStr))
    (hv : ∀ kv ∈ items, ∃ v, kv.2 = [v] ∧ alnumStr v) :
    serializeSingle nm (items.map (fun kv => (kv.1, colOf kv.2))) =
      .ok (items.map (fun kv =>
        ljust ('_' :: (nm ++ '.' :: kv.1))
          (((items.map (fun kv2 => ('_' :: (nm ++ '.' :: kv2.1)).length)).foldl
              max 0) + 3)
          ++ kv.2.headD [])) := by
  unfold serializeSingle
  dsimp only
  have hquoted : (items.map (fun kv => (kv.1, colOf kv.2))).mapM
      (fun kc => itemToQuoted kc.2) =
      .ok ((items.map (fun kv => (kv.1, colOf kv.2))).map
        (fun kc => (kc.2.data.array.map CIFValue.toPyStr).headD [])) := by
    apply mapM_ok_map
    intro kc hkc
    obtain ⟨kv, hkv, hof⟩ := List.mem_map.mp hkc
    obtain ⟨v, hv2, hva⟩ := hv kv hkv
    rw [← hof]
    show itemToQuoted (colOf kv.2) =
      .ok (((colOf kv.2).data.array.map CIFValue.toPyStr).headD [])
    rw [hv2]
    show itemToQuoted (colOf [v]) =
      .ok ((([v].map CIFValue.str).map CIFValue.toPyStr).headD [])
    rw [tostr_strs]
    exact itemToQuoted_colOf_single v hva
  rw [hquoted]
  show Except.ok _ = _
  congr 1
  dsimp only
  rw [zipWith_map_same, List.map_map, List.map_map]
  apply List.map_congr_left
  intro kv hkv
  obtain ⟨v, hv2, hva⟩ := hv kv hkv
  show ljust ('_' :: (nm ++ '.' :: kv.1)) _ ++
      ((colOf kv.2).data.array.map CIFValue.toPyStr).headD [] = _
  congr 2
  · rw [List.map_map]
    rfl
  · show (kv.2.map CIFValue.str).map CIFValue.toPyStr = kv.2
    exact tostr_strs kv.2

lemma serializeLooped_run (nm : PyStr) (items : List (PyStr × List PyStr))
    (n : Nat) (hv : ∀ kv ∈ items, ∀ v ∈ kv.2, alnumStr v) :
    serializeLooped nm (items.map (fun kv => (kv.1, colOf kv.2))) n =
      .ok (strL "loop_" ::
        (items.map (fun kv => '_' :: (nm ++ '.' :: kv.1) ++ [' ']) ++
          (List.range n).map (fun i =>
            joinEmpty (items.map (fun kv =>
              ljust (kv.2.getD i [])
                ((kv.2.map List.length).foldl max 0 + 1)))))) := by
  unfold serializeLooped
  dsimp only
  have harr : (items.map (fun kv => (kv.1, colOf kv.2))).mapM
      (fun kc => kc.2.as_array_str) =
      .ok ((items.map (fun kv => (kv.1, colOf kv.2))).map
        (fun kc => kc.2.data.array.map CIFValue.toPyStr)) := by
    apply mapM_ok_map
    intro kc hkc
    obtain ⟨kv, hkv, hof⟩ := List.mem_map.mp hkc
    rw [← hof]
    rfl
  rw [harr]
  show Except.ok _ = _
  congr 1
  dsimp only
  have hqa : ((items.map (fun kv => (kv.1, colOf kv.2))).map
      (fun kc => kc.2.data.array.map CIFValue.toPyStr)).map
      (fun arr => arr.map (fun e => _multiline (_quote e))) =
      items.map (fun kv => kv.2) := by
    rw [List.map_map, List.map_map]
    apply List.map_congr_left
    intro kv hkv
    show ((kv.2.map CIFValue.str).map CIFValue.toPyStr).map
      (fun e => _multiline (_quote e)) = kv.2
    rw [tostr_strs]
    exact map_qml_id kv.2 (hv kv hkv)
  rw [hqa]
  have hkl : (items.map (fun kv => (kv.1, colOf kv.2))).map
      (fun kc => '_' :: (nm ++ '.' :: kc.1) ++ [' ']) =
      items.map (fun kv => '_' :: (nm ++ '.' :: kv.1) ++ [' ']) := by
    rw [List.map_map]
    rfl
  rw [hkl]
  have hnc : (items.map (fun kv => kv.2)).map
      (fun arr => (arr.map List.length).foldl max 0 + 1) =
      items.map (fun kv => (kv.2.map List.length).foldl max 0 + 1) := by
    rw [List.map_map]
    rfl
  rw [hnc]
  rw [List.cons_append]
  congr 2
  apply List.map_congr_left
  intro i _
  rw [zipWith_map_same]

lemma lineF_form (nm k s : PyStr) (R : Nat) :
    ljust ('_' :: (nm ++ '.' :: k)) R ++ s =
      '_' :: (nm ++ '.' ::
        (k ++ (List.replicate (R - ('_' :: (nm ++ '.' :: k)).length) ' ' ++ s))) := by
  simp [ljust, List.append_assoc]

lemma deserialize_single_shape (text : PyStr) (l0 : PyStr) (rest : List PyStr)
    (hlines : ((splitlines text).filter (fun l => !_is_empty l)).map pyStrip =
      l0 :: rest)
    (hloop : _is_loop_start l0 = false)
    (catName : PyStr) (hname : _parse_category_name l0 = some catName)
    (singled : List PyStr) (hts : _to_single (l0 :: rest) false = some singled)
    (cols : List (PyStr × CIFColumn))
    (hds : deserializeSingle singled = .ok cols) :
    CIFCategory.deserialize text true = .ok ⟨some catName, none, cols⟩ := by
  unfold CIFCategory.deserialize
  dsimp only
  rw [hlines]
  dsimp only
  rw [hloop]
  simp only [Bool.false_eq_true, if_false]
  rw [hname]
  dsimp only
  rw [hts]
  dsimp only
  rw [hds]

lemma deserialize_looped_shape (text : PyStr) (l0 m0 : PyStr)
    (rest2 : List PyStr)
    (hlines : ((splitlines text).filter (fun l => !_is_empty l)).map pyStrip =
      l0 :: m0 :: rest2)
    (hloop : _is_loop_start l0 = true)
    (catName : PyStr) (hname : _parse_category_name m0 = some catName)
    (singled : List PyStr) (hts : _to_single (m0 :: rest2) true = some singled)
    (dict : List (PyStr × List PyStr))
    (hdl : deserializeLooped singled true = .ok dict)
    (cols : List (PyStr × CIFColumn))
    (hmap : dict.mapM (fun (kc : PyStr × List PyStr) =>
      (mkColumnFromStrs kc.2).map (fun c => (kc.1, c))) = .ok cols) :
    CIFCategory.deserialize text true = .ok ⟨some catName, none, cols⟩ := by
  unfold CIFCategory.deserialize
  dsimp only
  rw [hlines]
  dsimp only
  rw [hloop]
  simp only [if_true]
  rw [hname]
  dsimp only
  rw [hts]
  dsimp only
  rw [hdl]
  dsimp only
  rw [hmap]

/-- Proof abbreviation: the key-column width `_serialize_single` pads to
(longest `_<name>.<column>` key plus three). -/
def c1Req (nm : PyStr) (items : List (PyStr × List PyStr)) : Nat :=
  ((items.map (fun kv2 => ('_' :: (nm ++ '.' :: kv2.1)).length)).foldl max 0) + 3

/-- Proof abbreviation: one serialized single-row line, key padded to `R`. -/
def c1Line (nm : PyStr) (R : Nat) (kv : PyStr × List PyStr) : PyStr :=
  ljust ('_' :: (nm ++ '.' :: kv.1)) R ++ kv.2.headD []

lemma c1Line_head (nm : PyStr) (R : Nat) (kv : PyStr × List PyStr) :
    (c1Line nm R kv).head? = some '_' := by
  unfold c1Line
  rw [lineF_form]
  rfl

lemma c1_single_roundtrip (nm : PyStr) (items : List (PyStr × List PyStr))
    (hnm : alnumStr nm)
    (hkeys : ∀ kv ∈ items, alnumStr kv.1)
    (hv : ∀ kv ∈ items, ∃ v, kv.2 = [v] ∧ alnumStr v)
    (hnd : (items.map Prod.fst).Nodup)
    (hne : items ≠ []) :
    CIFCategory.deserialize
      (joinNl (items.map (c1Line nm (c1Req nm items)) ++ [[]])) true =
      .ok ⟨some nm, none, items.map (fun kv => (kv.1, colOf kv.2))⟩ := by
  have hkeyP : ∀ kv ∈ items, PlainTok ('_' :: (nm ++ '.' :: kv.1)) :=
    fun kv hkv => key_plainTok nm kv.1 hnm (hkeys kv hkv)
  have hlt : ∀ kv ∈ items,
      ('_' :: (nm ++ '.' :: kv.1)).length < c1Req nm items := by
    intro kv hkv
    have h1 := le_foldl_max
      (items.map (fun kv2 => ('_' :: (nm ++ '.' :: kv2.1)).length)) 0
      ('_' :: (nm ++ '.' :: kv.1)).length (List.mem_map_of_mem _ hkv)
    unfold c1Req
    omega
  have hsa : ∀ kv ∈ items, alnumStr (kv.2.headD []) := by
    intro kv hkv
    obtain ⟨v, hv2, hva⟩ := hv kv hkv
    rw [hv2]
    exact hva
  have hline_last : ∀ kv ∈ items, ∀ lst,
      (c1Line nm (c1Req nm items) kv).getLast? = some lst →
      isWS lst = false := by
    intro kv hkv lst hl
    have hvn : kv.2.headD [] ≠ [] := (hsa kv hkv).1
    have heq : (c1Line nm (c1Req nm items) kv).getLast? =
        (kv.2.headD []).getLast? := by
      unfold c1Line
      rw [List.getLast?_append_of_ne_nil]
      exact hvn
    rw [heq] at hl
    have hmem := mem_of_getLast?' _ lst hl
    exact (alnum_char_facts lst ((hsa kv hkv).2 lst hmem)).1
  have hempty : ∀ kv ∈ items,
      _is_empty (c1Line nm (c1Req nm items) kv) = false :=
    fun kv hkv => is_empty_false _ '_' (c1Line_head nm _ kv) (by decide)
      (by decide)
  have hstrip1 : ∀ kv ∈ items,
      pyStrip (c1Line nm (c1Req nm items) kv) = c1Line nm (c1Req nm items) kv := by
    intro kv hkv
    apply pyStrip_id
    · intro hd hh
      rw [c1Line_head nm _ kv] at hh
      have : '_' = hd := Option.some.inj hh
      rw [← this]
      decide
    · exact hline_last kv hkv
  have hnl : ∀ l ∈ items.map (c1Line nm (c1Req nm items)),
      l.contains '\n' = false := by
    intro l hl
    obtain ⟨kv, hkv, rfl⟩ := List.mem_map.mp hl
    show (ljust ('_' :: (nm ++ '.' :: kv.1)) (c1Req nm items) ++
      kv.2.headD []).contains '\n' = false
    rw [contains_append_eq]
    rw [ljust_no_nl _ _ (plain_no_nl _ (hkeyP kv hkv))]
    rw [alnum_no_char _ (hsa kv hkv) '\n' (by decide)]
    rfl
  have hsl : splitlines (joinNl (items.map (c1Line nm (c1Req nm items)) ++ [[]]))
      = items.map (c1Line nm (c1Req nm items)) := splitlines_joinNl _ hnl
  have hfilt : (items.map (c1Line nm (c1Req nm items))).filter
      (fun l => !_is_empty l) = items.map (c1Line nm (c1Req nm items)) := by
    apply filter_all_true
    intro l hl
    obtain ⟨kv, hkv, rfl⟩ := List.mem_map.mp hl
    rw [hempty kv hkv]
    rfl
  have hmapstrip : (items.map (c1Line nm (c1Req nm items))).map pyStrip =
      items.map (c1Line nm (c1Req nm items)) := by
    rw [List.map_map]
    apply List.map_congr_left
    intro kv hkv
    exact hstrip1 kv hkv
  have hds : deserializeSingle (items.map (c1Line nm (c1Req nm items))) =
      .ok (items.map (fun kv => (kv.1, colOf kv.2))) := by
    have hF : List.Forall₂ (fun ℓ (kv : PyStr × PyStr) =>
        ∃ p0, _split_one_line ℓ = [p0, kv.2] ∧
          (pySplitOn '.' p0).get? 1 = some kv.1)
        (items.map (c1Line nm (c1Req nm items)))
        (items.map (fun kv => (kv.1, kv.2.headD []))) := by
      apply forall2_map_map
      intro kv hkv
      refine ⟨'_' :: (nm ++ '.' :: kv.1), ?_, ?_⟩
      · exact line_single_split _ _ _ (hkeyP kv hkv) (hsa kv hkv) (hlt kv hkv)
      · rw [pySplitOn_key nm kv.1 hnm (hkeys kv hkv)]
        rfl
    show deserializeSingleAux (items.map (c1Line nm (c1Req nm items))) [] = _
    rw [dsingle_run _ _ hF []]
    congr 1
    have h1 : (items.map (fun kv => (kv.1, kv.2.headD []))).foldl
        (fun d kv => dictInsert d kv.1 (mkColumnFromStr kv.2)) [] =
        ((items.map (fun kv => (kv.1, kv.2.headD []))).map
          (fun kv => (kv.1, mkColumnFromStr kv.2))).foldl
          (fun d (p : PyStr × CIFColumn) => dictInsert d p.1 p.2) [] :=
      (List.foldl_map (fun (kv : PyStr × PyStr) => (kv.1, mkColumnFromStr kv.2))
        (fun d (p : PyStr × CIFColumn) => dictInsert d p.1 p.2)
        (items.map (fun kv => (kv.1, kv.2.headD []))) []).symm
    rw [h1]
    have hkeq : (((items.map (fun kv => (kv.1, kv.2.headD []))).map
        (fun kv => (kv.1, mkColumnFromStr kv.2))).map Prod.fst) =
        items.map Prod.fst := by
      rw [List.map_map, List.map_map]
      rfl
    rw [foldl_dictInsert_fresh _ [] (fun p _ => rfl) (by rw [hkeq]; exact hnd)]
    rw [List.nil_append, List.map_map]
    apply List.map_congr_left
    intro kv hkv
    obtain ⟨v, hv2, hva⟩ := hv kv hkv
    show (kv.1, mkColumnFromStr (kv.2.headD [])) = (kv.1, colOf kv.2)
    rw [hv2]
    show (kv.1, mkColumnFromStr v) = _
    rw [mkColumnFromStr_alnum v hva, ← hv2]
  cases items with
  | nil => exact absurd rfl hne
  | cons kv0 items' =>
    have hmem0 : kv0 ∈ kv0 :: items' := List.mem_cons_self _ _
    apply deserialize_single_shape _ (c1Line nm (c1Req nm (kv0 :: items')) kv0)
      (items'.map (c1Line nm (c1Req nm (kv0 :: items'))))
    · rw [hsl, hfilt, hmapstrip, List.map_cons]
    · exact is_loop_start_false _ '_' (c1Line_head nm _ kv0) (by decide)
    · show _parse_category_name (ljust ('_' :: (nm ++ '.' :: kv0.1))
        (c1Req nm (kv0 :: items')) ++ kv0.2.headD []) = some nm
      rw [lineF_form]
      exact parse_category_name_key nm _ hnm
    · have hpass := to_single_pass ((kv0 :: items').map
        (c1Line nm (c1Req nm (kv0 :: items')))) false ?_
      · rw [List.map_cons] at hpass
        exact hpass
      · intro l hl
        obtain ⟨kv, hkv, rfl⟩ := List.mem_map.mp hl
        constructor
        · intro hcon
          rw [c1Line_head nm _ kv] at hcon
          exact absurd (Option.some.inj hcon) (by decide)
        · intro _
          exact c1Line_head nm _ kv
    · rw [← List.map_cons]
      exact hds

/-- Proof abbreviation: the looped column width (`itemsize + 1`). -/
def c1W (kv : PyStr × List PyStr) : Nat := (kv.2.map List.length).foldl max 0 + 1

/-- Proof abbreviation: one serialized looped value line (row `i`). -/
def c1Row (items : List (PyStr × List PyStr)) (i : Nat) : PyStr :=
  joinEmpty (items.map (fun kv => ljust (kv.2.getD i []) (c1W kv)))

/-- Proof abbreviation: row `i` as (token, width) pairs. -/
def c1RowPs (items : List (PyStr × List PyStr)) (i : Nat) : List (PyStr × Nat) :=
  items.map (fun kv => (kv.2.getD i [], c1W kv))

lemma getD_mem_of_lt (l : List α) (i : Nat) (d : α) (h : i < l.length) :
    l.getD i d ∈ l := by
  rw [List.getD_eq_getElem?_getD, List.getElem?_eq_getElem h]
  exact List.getElem_mem h

lemma joinEmpty_no_nl (ps : List PyStr)
    (h : ∀ p ∈ ps, p.contains '\n' = false) :
    (joinEmpty ps).contains '\n' = false := by
  induction ps with
  | nil => rfl
  | cons p ps ih =>
    show (p ++ joinEmpty ps).contains '\n' = false
    rw [contains_append_eq, h p (List.mem_cons_self _ _),
      ih (fun q hq => h q (List.mem_cons_of_mem _ hq))]
    rfl

lemma mapM_loopKey (nm : PyStr) (items : List (PyStr × List PyStr))
    (hnm : alnumStr nm) (hkeys : ∀ kv ∈ items, alnumStr kv.1) :
    (items.map (fun kv => '_' :: (nm ++ '.' :: kv.1))).mapM loopKeyOf =
      .ok (items.map Prod.fst) := by
  induction items with
  | nil => rfl
  | cons kv items ih =>
    rw [List.map_cons, List.map_cons, List.mapM_cons]
    rw [loopKeyOf_key nm kv.1 hnm (hkeys kv (List.mem_cons_self _ _))]
    rw [ih (fun kv2 h2 => hkeys kv2 (List.mem_cons_of_mem _ h2))]
    rfl

lemma c1_tok_facts (items : List (PyStr × List PyStr)) (n : Nat)
    (hvals : ∀ kv ∈ items, ∀ v ∈ kv.2, alnumStr v)
    (hlen : ∀ kv ∈ items, kv.2.length = n) (i : Nat) (hi : i < n) :
    ∀ kv ∈ items, alnumStr (kv.2.getD i []) ∧
      (kv.2.getD i []).length < c1W kv := by
  intro kv hkv
  have hmem : kv.2.getD i [] ∈ kv.2 :=
    getD_mem_of_lt kv.2 i [] (by rw [hlen kv hkv]; exact hi)
  refine ⟨hvals kv hkv _ hmem, ?_⟩
  have := le_foldl_max (kv.2.map List.length) 0 (kv.2.getD i []).length
    (List.mem_map_of_mem _ hmem)
  unfold c1W
  omega

lemma c1Row_eq (items : List (PyStr × List PyStr)) (i : Nat) :
    c1Row items i = joinEmpty ((c1RowPs items i).map (fun p => ljust p.1 p.2)) := by
  unfold c1Row c1RowPs
  rw [List.map_map]
  rfl

lemma c1RowPs_ne_nil (items : List (PyStr × List PyStr)) (i : Nat)
    (hne : items ≠ []) : c1RowPs items i ≠ [] := by
  unfold c1RowPs
  intro hcon
  rw [List.map_eq_nil] at hcon
  exact hne hcon

lemma c1Row_strip (items : List (PyStr × List PyStr)) (n : Nat)
    (hvals : ∀ kv ∈ items, ∀ v ∈ kv.2, alnumStr v)
    (hlen : ∀ kv ∈ items, kv.2.length = n) (hne : items ≠ [])
    (i : Nat) (hi : i < n) :
    pyStrip (c1Row items i) = joinPadLast (c1RowPs items i) := by
  have htf := c1_tok_facts items n hvals hlen i hi
  have hpne := c1RowPs_ne_nil items i hne
  have htokne : ∀ p ∈ c1RowPs items i, p.1 ≠ [] := by
    intro p hp
    obtain ⟨kv, hkv, rfl⟩ := List.mem_map.mp hp
    exact (htf kv hkv).1.1
  obtain ⟨wtr, hw, hws⟩ := joinPad_decompose (c1RowPs items i) hpne
  rw [c1Row_eq, hw]
  apply pyStrip_core
  · intro hd hh
    obtain ⟨p0, rest, hps, hhead⟩ := joinPadLast_head? (c1RowPs items i) hpne htokne
    rw [hhead] at hh
    obtain ⟨kv, hkv, hof⟩ := List.mem_map.mp (by
      rw [hps]; exact List.mem_cons_self p0 rest :
        p0 ∈ (c1RowPs items i : List (PyStr × Nat)))
    have halnum : alnumStr p0.1 := by
      rw [← hof]
      exact (htf kv hkv).1
    have hdm := head_mem_of_head? p0.1 hd hh
    exact (alnum_char_facts hd (halnum.2 hd hdm)).1
  · intro lst hl
    obtain ⟨pl, hplmem, hlast⟩ := joinPadLast_getLast? (c1RowPs items i) hpne htokne
    rw [hlast] at hl
    obtain ⟨kv, hkv, hof⟩ := List.mem_map.mp hplmem
    have halnum : alnumStr pl.1 := by
      rw [← hof]
      exact (htf kv hkv).1
    have hdm := mem_of_getLast?' pl.1 lst hl
    exact (alnum_char_facts lst (halnum.2 lst hdm)).1
  · exact hws

lemma c1Row_tokens (items : List (PyStr × List PyStr)) (n : Nat)
    (hvals : ∀ kv ∈ items, ∀ v ∈ kv.2, alnumStr v)
    (hlen : ∀ kv ∈ items, kv.2.length = n) (hne : items ≠ [])
    (i : Nat) (hi : i < n) :
    _split_one_line (joinPadLast (c1RowPs items i)) =
      items.map (fun kv => kv.2.getD i []) := by
  have htf := c1_tok_facts items n hvals hlen i hi
  have hsf : splitFields (joinPadLast (c1RowPs items i)) =
      (c1RowPs items i).map Prod.fst := by
    apply splitFields_joinPadLast _ (c1RowPs_ne_nil items i hne)
    intro p hp
    obtain ⟨kv, hkv, rfl⟩ := List.mem_map.mp hp
    exact ⟨alnum_plainTok _ (htf kv hkv).1, (htf kv hkv).2⟩
  have hfst : (c1RowPs items i).map Prod.fst =
      items.map (fun kv => kv.2.getD i []) := by
    unfold c1RowPs
    rw [List.map_map]
    rfl
  apply split_one_line_plain
  · rw [hsf, hfst]
  · intro t ht
    obtain ⟨kv, hkv, rfl⟩ := List.mem_map.mp ht
    exact alnum_plainTok _ (htf kv hkv).1

lemma c1RowStripped_head (items : List (PyStr × List PyStr)) (n : Nat)
    (hvals : ∀ kv ∈ items, ∀ v ∈ kv.2, alnumStr v)
    (hlen : ∀ kv ∈ items, kv.2.length = n) (hne : items ≠ [])
    (i : Nat) (hi : i < n) :
    ∃ c, (joinPadLast (c1RowPs items i)).head? = some c ∧
      c.isAlphanum = true := by
  have htf := c1_tok_facts items n hvals hlen i hi
  have htokne : ∀ p ∈ c1RowPs items i, p.1 ≠ [] := by
    intro p hp
    obtain ⟨kv, hkv, rfl⟩ := List.mem_map.mp hp
    exact (htf kv hkv).1.1
  obtain ⟨p0, rest, hps, hhead⟩ := joinPadLast_head? (c1RowPs items i)
    (c1RowPs_ne_nil items i hne) htokne
  obtain ⟨kv, hkv, hof⟩ := List.mem_map.mp (by
    rw [hps]; exact List.mem_cons_self p0 rest :
      p0 ∈ (c1RowPs items i : List (PyStr × Nat)))
  have halnum : alnumStr p0.1 := by
    rw [← hof]
    exact (htf kv hkv).1
  match hp0 : p0.1, halnum with
  | c :: t, halnum2 =>
    refine ⟨c, ?_, ?_⟩
    · rw [hhead, hp0]
      rfl
    · exact halnum2.2 c (List.mem_cons_self _ _)

lemma map_fst_pairs (keys : List PyStr) :
    (keys.map (fun k => (k, ([] : List PyStr)))).map Prod.fst = keys := by
  rw [List.map_map]
  have h : (Prod.fst ∘ fun (k : PyStr) => (k, ([] : List PyStr))) = id := rfl
  rw [h, List.map_id]

lemma c1_looped_dict (nm : PyStr) (items : List (PyStr × List PyStr)) (n : Nat)
    (hnm : alnumStr nm)
    (hkeys : ∀ kv ∈ items, alnumStr kv.1)
    (hvals : ∀ kv ∈ items, ∀ v ∈ kv.2, alnumStr v)
    (hnd : (items.map Prod.fst).Nodup)
    (hne : items ≠ [])
    (hlen : ∀ kv ∈ items, kv.2.length = n)
    (hn : 1 ≤ n) :
    deserializeLooped
      (items.map (fun kv => '_' :: (nm ++ '.' :: kv.1)) ++
        (List.range n).map (fun i => joinPadLast (c1RowPs items i))) true =
      .ok items := by
  have hkpos : 0 < (items.map Prod.fst).length := by
    cases items with
    | nil => exact absurd rfl hne
    | cons a l => simp
  have hkhead : ∀ l ∈ items.map (fun kv => '_' :: (nm ++ '.' :: kv.1)),
      l.head? = some '_' := by
    intro l hl
    obtain ⟨kv, hkv, rfl⟩ := List.mem_map.mp hl
    rfl
  have hdhead : ∀ l ∈ (List.range n).map
      (fun i => joinPadLast (c1RowPs items i)), ¬ l.head? = some '_' := by
    intro l hl hcon
    obtain ⟨i, hi, rfl⟩ := List.mem_map.mp hl
    obtain ⟨c, hc, hca⟩ := c1RowStripped_head items n hvals hlen hne i
      (List.mem_range.mp hi)
    rw [hc] at hcon
    have : c = '_' := Option.some.inj hcon
    rw [this] at hca
    simp at hca
  have hsplit := takeWhile_all_front
    (p := fun l => decide (l.head? = some '_'))
    (items.map (fun kv => '_' :: (nm ++ '.' :: kv.1)))
    ((List.range n).map (fun i => joinPadLast (c1RowPs items i)))
    (by intro a ha; exact decide_eq_true (hkhead a ha))
    (by intro b hb; exact decide_eq_false (hdhead b hb))
  have hkparse := mapM_loopKey nm items hnm hkeys
  have htokseq : ((List.range n).map
      (fun i => joinPadLast (c1RowPs items i))).map (tokenizeLine true) =
      (List.range n).map (fun i => items.map (fun kv => kv.2.getD i [])) := by
    rw [List.map_map]
    apply List.map_congr_left
    intro i hi
    show _split_one_line (joinPadLast (c1RowPs items i)) = _
    exact c1Row_tokens items n hvals hlen hne i (List.mem_range.mp hi)
  have hd0 : (items.map Prod.fst).foldl
      (fun d k => dictInsert d k ([] : List PyStr)) [] =
      (items.map Prod.fst).map (fun k => (k, ([] : List PyStr))) := by
    have := foldl_insert_fresh (items.map Prod.fst) [] hnd (fun k _ => rfl)
    simpa using this
  have hrows_len : ∀ row ∈ (List.range n).map
      (fun i => items.map (fun kv => kv.2.getD i [])),
      row.length = (items.map Prod.fst).length := by
    intro row hrow
    obtain ⟨i, hi, rfl⟩ := List.mem_map.mp hrow
    simp
  obtain ⟨d, hrun, hdkeys, hlook⟩ := assignTokens_rr (items.map Prod.fst) hnd
    (((List.range n).map (fun i => items.map (fun kv => kv.2.getD i []))).flatten)
    0 hkpos ((items.map Prod.fst).map (fun k => (k, [])))
    (map_fst_pairs (items.map Prod.fst))
  have hlookV : ∀ key ∈ items.map Prod.fst,
      dictLookup d key = some ((dictLookup items key).getD []) := by
    intro key hkey
    obtain ⟨⟨j, hj⟩, hget⟩ := List.mem_iff_get.mp hkey
    have hj' : j < items.length := by simpa using hj
    have hinit : dictLookup ((items.map Prod.fst).map (fun k => (k, [])))
        ((items.map Prod.fst).get ⟨j, hj⟩) = some [] :=
      dictLookup_map_nil _ _ (List.get_mem _ _ _)
    have hcol := hlook j hj [] hinit
    have hkeyj : (items.map Prod.fst).get ⟨j, hj⟩ = (items.get ⟨j, hj'⟩).1 := by
      rw [List.get_eq_getElem, List.get_eq_getElem, List.getElem_map]
    have hrr := rrCol_rows (items.map Prod.fst).length j hj ([] : PyStr)
      ((List.range n).map (fun i => items.map (fun kv => kv.2.getD i [])))
      hrows_len
    have hgd : ((List.range n).map
        (fun i => items.map (fun kv => kv.2.getD i []))).map
        (fun row => row.getD j []) =
        (List.range n).map (fun i => ((items.get ⟨j, hj'⟩).2).getD i []) := by
      rw [List.map_map]
      apply List.map_congr_left
      intro i _
      show (items.map (fun kv => kv.2.getD i [])).getD j [] = _
      rw [List.getD_eq_getElem?_getD,
        List.getElem?_eq_getElem (by simpa using hj')]
      rw [List.getElem_map]
      rfl
    have hcollapse : (List.range n).map
        (fun i => ((items.get ⟨j, hj'⟩).2).getD i []) = (items.get ⟨j, hj'⟩).2 := by
      have hl : ((items.get ⟨j, hj'⟩).2).length = n :=
        hlen _ (List.get_mem _ _ _)
      rw [← hl]
      exact map_getD_range _ _
    have hlookupj : dictLookup items (items.get ⟨j, hj'⟩).1 =
        some (items.get ⟨j, hj'⟩).2 :=
      dict_entries_lookup items hnd _ (List.get_mem _ _ _)
    rw [← hget, hcol, hrr, hgd, hcollapse, hkeyj, hlookupj]
    simp
  have hdeq : d = (items.map Prod.fst).map
      (fun key => (key, (dictLookup items key).getD [])) :=
    dict_ext_of_keys d (items.map Prod.fst) _ hdkeys hnd hlookV
  have hitems : (items.map Prod.fst).map
      (fun key => (key, (dictLookup items key).getD [])) = items := by
    rw [List.map_map]
    have hcongr : ∀ kv ∈ items, ((fun key => (key, (dictLookup items key).getD []))
        ∘ Prod.fst) kv = id kv := by
      intro kv hkv
      show (kv.1, (dictLookup items kv.1).getD []) = kv
      rw [dict_entries_lookup items hnd kv hkv]
      simp
    rw [List.map_congr_left hcongr, List.map_id]
  unfold deserializeLooped
  rw [hsplit.1, hsplit.2]
  dsimp only
  rw [hkparse]
  show assignTokens (items.map Prod.fst)
      ((((List.range n).map (fun i => joinPadLast (c1RowPs items i))).map
        (tokenizeLine true)).flatten) []
      ((items.map Prod.fst).foldl (fun d k => dictInsert d k []) []) = .ok items
  rw [htokseq, hd0, assignTokens_refill]
  rw [List.drop_zero] at hrun
  rw [hrun, hdeq, hitems]

lemma c1Row_head (items : List (PyStr × List PyStr)) (n : Nat)
    (hvals : ∀ kv ∈ items, ∀ v ∈ kv.2, alnumStr v)
    (hlen : ∀ kv ∈ items, kv.2.length = n) (hne : items ≠ [])
    (i : Nat) (hi : i < n) :
    ∃ c, (c1Row items i).head? = some c ∧ c.isAlphanum = true := by
  cases items with
  | nil => exact absurd rfl hne
  | cons kv0 items' =>
    have htf := c1_tok_facts (kv0 :: items') n hvals hlen i hi kv0
      (List.mem_cons_self _ _)
    have htokne : kv0.2.getD i [] ≠ [] := htf.1.1
    match h0 : kv0.2.getD i [], htf.1 with
    | c :: t, hal2 =>
      refine ⟨c, ?_, hal2.2 c (List.mem_cons_self _ _)⟩
      show (joinEmpty (ljust (kv0.2.getD i []) (c1W kv0) ::
        items'.map (fun kv => ljust (kv.2.getD i []) (c1W kv)))).head? = some c
      rw [joinEmpty_head _ _ (by
        rw [h0]
        unfold ljust
        simp)]
      rw [ljust_head _ _ (by rw [h0]; simp)]
      rw [h0]
      rfl

lemma c1_keyline_strip (nm : PyStr) (kv : PyStr × List PyStr)
    (hnm : alnumStr nm) (hk : alnumStr kv.1) :
    pyStrip ('_' :: (nm ++ '.' :: kv.1) ++ [' ']) = '_' :: (nm ++ '.' :: kv.1) := by
  apply pyStrip_core
  · intro hd hh
    have : '_' = hd := Option.some.inj hh
    rw [← this]
    decide
  · intro lst hl
    rw [getLast?_key nm kv.1 hk.1] at hl
    have hmem := mem_of_getLast?' kv.1 lst hl
    exact (alnum_char_facts lst (hk.2 lst hmem)).1
  · intro c hc
    rw [List.mem_singleton] at hc
    rw [hc]
    rfl

lemma c1_looped_roundtrip (nm : PyStr) (items : List (PyStr × List PyStr))
    (n : Nat)
    (hnm : alnumStr nm)
    (hkeys : ∀ kv ∈ items, alnumStr kv.1)
    (hvals : ∀ kv ∈ items, ∀ v ∈ kv.2, alnumStr v)
    (hnd : (items.map Prod.fst).Nodup)
    (hne : items ≠ [])
    (hlen : ∀ kv ∈ items, kv.2.length = n)
    (hn : 1 ≤ n) :
    CIFCategory.deserialize
      (joinNl ((strL "loop_" ::
        (items.map (fun kv => '_' :: (nm ++ '.' :: kv.1) ++ [' ']) ++
          (List.range n).map (c1Row items))) ++ [[]])) true =
      .ok ⟨some nm, none, items.map (fun kv => (kv.1, colOf kv.2))⟩ := by
  have hnl : ∀ l ∈ strL "loop_" ::
      (items.map (fun kv => '_' :: (nm ++ '.' :: kv.1) ++ [' ']) ++
        (List.range n).map (c1Row items)), l.contains '\n' = false := by
    intro l hl
    rcases List.mem_cons.mp hl with rfl | hl
    · decide
    · rcases List.mem_append.mp hl with hl | hl
      · obtain ⟨kv, hkv, rfl⟩ := List.mem_map.mp hl
        rw [contains_append_eq,
          plain_no_nl _ (key_plainTok nm kv.1 hnm (hkeys kv hkv))]
        decide
      · obtain ⟨i, hi, rfl⟩ := List.mem_map.mp hl
        unfold c1Row
        apply joinEmpty_no_nl
        intro p hp
        obtain ⟨kv, hkv, rfl⟩ := List.mem_map.mp hp
        apply ljust_no_nl
        exact alnum_no_char _
          (c1_tok_facts items n hvals hlen i (List.mem_range.mp hi) kv hkv).1
          '\n' (by decide)
  have hsl := splitlines_joinNl _ hnl
  have hfilt : (strL "loop_" ::
      (items.map (fun kv => '_' :: (nm ++ '.' :: kv.1) ++ [' ']) ++
        (List.range n).map (c1Row items))).filter (fun l => !_is_empty l) =
      strL "loop_" ::
        (items.map (fun kv => '_' :: (nm ++ '.' :: kv.1) ++ [' ']) ++
          (List.range n).map (c1Row items)) := by
    apply filter_all_true
    intro l hl
    rcases List.mem_cons.mp hl with rfl | hl
    · decide
    · rcases List.mem_append.mp hl with hl | hl
      · obtain ⟨kv, hkv, rfl⟩ := List.mem_map.mp hl
        rw [is_empty_false ('_' :: (nm ++ '.' :: kv.1) ++ [' ']) '_' rfl
          (by decide) (by decide)]
        rfl
      · obtain ⟨i, hi, rfl⟩ := List.mem_map.mp hl
        obtain ⟨c, hc, hca⟩ := c1Row_head items n hvals hlen hne i
          (List.mem_range.mp hi)
        rw [is_empty_false _ c hc (alnum_char_facts c hca).1
          (alnum_char_facts c hca).2.2.2.2.2.1]
        rfl
  have hkstrip : (items.map
      (fun kv => '_' :: (nm ++ '.' :: kv.1) ++ [' '])).map pyStrip =
      items.map (fun kv => '_' :: (nm ++ '.' :: kv.1)) := by
    rw [List.map_map]
    apply List.map_congr_left
    intro kv hkv
    exact c1_keyline_strip nm kv hnm (hkeys kv hkv)
  have hrstrip : ((List.range n).map (c1Row items)).map pyStrip =
      (List.range n).map (fun i => joinPadLast (c1RowPs items i)) := by
    rw [List.map_map]
    apply List.map_congr_left
    intro i hi
    exact c1Row_strip items n hvals hlen hne i (List.mem_range.mp hi)
  have hstripL : (strL "loop_" ::
      (items.map (fun kv => '_' :: (nm ++ '.' :: kv.1) ++ [' ']) ++
        (List.range n).map (c1Row items))).map pyStrip =
      strL "loop_" ::
        (items.map (fun kv => '_' :: (nm ++ '.' :: kv.1)) ++
          (List.range n).map (fun i => joinPadLast (c1RowPs items i))) := by
    rw [List.map_cons, List.map_append, hkstrip, hrstrip]
    have hls : pyStrip (strL "loop_") = strL "loop_" := by decide
    rw [hls]
  have hts : _to_single
      (items.map (fun kv => '_' :: (nm ++ '.' :: kv.1)) ++
        (List.range n).map (fun i => joinPadLast (c1RowPs items i))) true =
      some (items.map (fun kv => '_' :: (nm ++ '.' :: kv.1)) ++
        (List.range n).map (fun i => joinPadLast (c1RowPs items i))) := by
    apply to_single_pass
    intro l hl
    rcases List.mem_append.mp hl with hl | hl
    · obtain ⟨kv, hkv, rfl⟩ := List.mem_map.mp hl
      refine ⟨by simp, fun h => absurd h (by decide)⟩
    · obtain ⟨i, hi, rfl⟩ := List.mem_map.mp hl
      obtain ⟨c, hc, hca⟩ := c1RowStripped_head items n hvals hlen hne i
        (List.mem_range.mp hi)
      refine ⟨?_, fun h => absurd h (by decide)⟩
      rw [hc]
      intro hcon
      have : c = ';' := Option.some.inj hcon
      rw [this] at hca
      simp at hca
  have hdl := c1_looped_dict nm items n hnm hkeys hvals hnd hne hlen hn
  have hmap : items.mapM (fun (kc : PyStr × List PyStr) =>
      (mkColumnFromStrs kc.2).map (fun c => (kc.1, c))) =
      .ok (items.map (fun kv => (kv.1, colOf kv.2))) := by
    apply mapM_ok_map
    intro kv hkv
    have hne2 : kv.2 ≠ [] := by
      intro hcon
      have := hlen kv hkv
      rw [hcon] at this
      simp at this
      omega
    rw [mkColumnFromStrs_alnum kv.2 hne2 (hvals kv hkv)]
    rfl
  cases items with
  | nil => exact absurd rfl hne
  | cons kv0 items' =>
    have hlines2 : ((splitlines (joinNl ((strL "loop_" ::
        ((kv0 :: items').map (fun kv => '_' :: (nm ++ '.' :: kv.1) ++ [' ']) ++
          (List.range n).map (c1Row (kv0 :: items')))) ++ [[]]))).filter
        (fun l => !_is_empty l)).map pyStrip =
        strL "loop_" :: ('_' :: (nm ++ '.' :: kv0.1)) ::
          (items'.map (fun kv => '_' :: (nm ++ '.' :: kv.1)) ++
            (List.range n).map
              (fun i => joinPadLast (c1RowPs (kv0 :: items') i))) := by
      rw [hsl, hfilt, hstripL, List.map_cons, List.cons_append]
    have hts2 : _to_single (('_' :: (nm ++ '.' :: kv0.1)) ::
        (items'.map (fun kv => '_' :: (nm ++ '.' :: kv.1)) ++
          (List.range n).map
            (fun i => joinPadLast (c1RowPs (kv0 :: items') i)))) true =
        some (('_' :: (nm ++ '.' :: kv0.1)) ::
          (items'.map (fun kv => '_' :: (nm ++ '.' :: kv.1)) ++
            (List.range n).map
              (fun i => joinPadLast (c1RowPs (kv0 :: items') i)))) := by
      have h := hts
      rw [List.map_cons, List.cons_append] at h
      exact h
    have hdl2 : deserializeLooped (('_' :: (nm ++ '.' :: kv0.1)) ::
        (items'.map (fun kv => '_' :: (nm ++ '.' :: kv.1)) ++
          (List.range n).map
            (fun i => joinPadLast (c1RowPs (kv0 :: items') i)))) true =
        .ok (kv0 :: items') := by
      have h := hdl
      rw [List.map_cons, List.cons_append] at h
      exact h
    exact deserialize_looped_shape _ _ _ _ hlines2 (by decide) nm
      (parse_category_name_key nm kv0.1 hnm) _ hts2 _ hdl2 _ hmap

instance (s : PyStr) : Decidable (alnumStr s) := And.decidable

/-- C1 (counterexample): a programmatically legal category — name set, one
column, one row — whose column carries a MISSING mask does not round-trip:
`serialize` renders the masked value as `?`, and `deserialize` re-infers the
mask from that `?`, so the stored datum `"x"` is lost and `__eq__` is false. -/
theorem c1_counterexample :
    ∃ t cat2,
      (CIFCategory.serialize
        ⟨some (strL "cat"), none,
          [(strL "c", ⟨⟨[CIFValue.str (strL "x")]⟩, some [MaskValue.missing]⟩)]⟩).1
        = .ok t
      ∧ CIFCategory.deserialize t true = .ok cat2
      ∧ CIFCategory.eqb cat2
          ⟨some (strL "cat"), none,
            [(strL "c", ⟨⟨[CIFValue.str (strL "x")]⟩, some [MaskValue.missing]⟩)]⟩
          = false :=
  ⟨strL "_cat.c   ?\n",
   ⟨some (strL "cat"), none,
     [(strL "c", ⟨⟨[CIFValue.str (strL "?")]⟩, some [MaskValue.missing]⟩)]⟩,
   rfl, rfl, rfl⟩

/-- C1 (amended): the category-level round trip does hold on the mask-free
programmatic fragment: a category built from a nonempty dict of distinct
alphanumeric column names over alphanumeric string values (name set, all
columns of one length `n ≥ 1`) serializes successfully, and deserializing
the produced text yields a category equal (under `__eq__`) to the original,
in both the single-row and the looped layout. -/
theorem c1_roundtrip_restricted (nm : PyStr) (items : List (PyStr × List PyStr))
    (n : Nat)
    (hnm : alnumStr nm)
    (hkeys : ∀ kv ∈ items, alnumStr kv.1)
    (hvals : ∀ kv ∈ items, ∀ v ∈ kv.2, alnumStr v)
    (hnd : (items.map Prod.fst).Nodup)
    (hne : items ≠ [])
    (hlen : ∀ kv ∈ items, kv.2.length = n)
    (hn : 1 ≤ n) :
    ∃ t cat2,
      (CIFCategory.serialize (mkCIFCategory
        (items.map (fun kv => (kv.1, colOf kv.2))) (some nm))).1 = .ok t
      ∧ CIFCategory.deserialize t true = .ok cat2
      ∧ CIFCategory.eqb cat2 (mkCIFCategory
          (items.map (fun kv => (kv.1, colOf kv.2))) (some nm)) = true := by
  have hcolne : items.map (fun kv => (kv.1, colOf kv.2)) ≠ [] := by
    intro hcon
    rw [List.map_eq_nil] at hcon
    exact hne hcon
  have hck : checkRowsAux none (items.map (fun kv => (kv.1, colOf kv.2))) =
      (some n, none) := by
    apply checkRows_all_n _ n _ hcolne
    intro kc hkc
    obtain ⟨kv, hkv, rfl⟩ := List.mem_map.mp hkc
    show (colOf kv.2).len = n
    rw [colOf_len]
    exact hlen kv hkv
  by_cases hn1 : n = 1
  · subst hn1
    have hv1 : ∀ kv ∈ items, ∃ v, kv.2 = [v] ∧ alnumStr v := by
      intro kv hkv
      obtain ⟨v, hv2⟩ := List.length_eq_one.mp (hlen kv hkv)
      exact ⟨v, hv2, by
        apply hvals kv hkv
        rw [hv2]
        exact List.mem_cons_self _ _⟩
    have hser := serialize_run_single nm (items.map (fun kv => (kv.1, colOf kv.2)))
      hcolne hck _ (serializeSingle_run nm items hv1)
    refine ⟨joinNl (items.map (c1Line nm (c1Req nm items)) ++ [[]]),
      ⟨some nm, none, items.map (fun kv => (kv.1, colOf kv.2))⟩, ?_, ?_, ?_⟩
    · show (CIFCategory.serialize
        ⟨some nm, none, items.map (fun kv => (kv.1, colOf kv.2))⟩).1 = _
      rw [hser]
      rfl
    · exact c1_single_roundtrip nm items hnm hkeys hv1 hnd hne
    · exact eqb_true_of _ _ rfl (fun _ => rfl)
  · have hn0 : ¬ n = 0 := by omega
    have hser := serialize_run_looped nm
      (items.map (fun kv => (kv.1, colOf kv.2))) n hcolne hck hn0 hn1 _
      (serializeLooped_run nm items n hvals)
    refine ⟨joinNl ((strL "loop_" ::
        (items.map (fun kv => '_' :: (nm ++ '.' :: kv.1) ++ [' ']) ++
          (List.range n).map (c1Row items))) ++ [[]]),
      ⟨some nm, none, items.map (fun kv => (kv.1, colOf kv.2))⟩, ?_, ?_, ?_⟩
    · show (CIFCategory.serialize
        ⟨some nm, none, items.map (fun kv => (kv.1, colOf kv.2))⟩).1 = _
      rw [hser]
      rfl
    · exact c1_looped_roundtrip nm items n hnm hkeys hvals hnd hne hlen hn
    · exact eqb_true_of _ _ rfl (fun _ => rfl)

/-- C1 (witness): a concrete two-column, two-row category of alphanumeric
strings round-trips through serialize and deserialize up to `__eq__`. -/
theorem c1_witness :
    ∃ t cat2,
      (CIFCategory.serialize (mkCIFCategory
        (([(strL "a", [strL "x", strL "y"]), (strL "b", [strL "u", strL "v"])] :
          List (PyStr × List PyStr)).map (fun kv => (kv.1, colOf kv.2)))
        (some (strL "cat")))).1 = .ok t
      ∧ CIFCategory.deserialize t true = .ok cat2
      ∧ CIFCategory.eqb cat2 (mkCIFCategory
          (([(strL "a", [strL "x", strL "y"]), (strL "b", [strL "u", strL "v"])] :
            List (PyStr × List PyStr)).map (fun kv => (kv.1, colOf kv.2)))
          (some (strL "cat"))) = true :=
  c1_roundtrip_restricted (strL "cat")
    [(strL "a", [strL "x", strL "y"]), (strL "b", [strL "u", strL "v"])] 2
    (by decide) (by decide) (by decide) (by decide) (by decide) (by decide)
    (by decide)
